import Mathlib

set_option maxHeartbeats 1000000

/-!
Shallow embedding of the IPv6 address engine (src/src/utils/ipv6Parser.ts and
src/src/utils/subnetting.ts).  JavaScript strings are modelled as `List Char`,
JavaScript numbers as `Int` (exact where the source only ever compares or
stores values whose magnitude keeps IEEE doubles exact), JS bigints as `Int`,
and the 32-bit coercion that JavaScript applies to the operands of `&`, `|`,
`~`, `<<` and `>>` is modelled explicitly by `toUint32`/`toInt32`.
-/

namespace IPv6

/-- Character list standing for a JavaScript string. -/
abbrev Str := List Char

/-- Whitespace recognised by JavaScript `trim` and `parseInt` (the ASCII
whitespace characters plus NBSP; further exotic Unicode space characters are
not modelled, no theorem below feeds them). -/
def jsIsWhite (c : Char) : Bool :=
  c.toNat = 32 || c.toNat = 9 || c.toNat = 10 || c.toNat = 11 ||
  c.toNat = 12 || c.toNat = 13 || c.toNat = 160

/-- JavaScript `String.prototype.trim`. -/
def jsTrim (s : Str) : Str :=
  ((s.dropWhile jsIsWhite).reverse.dropWhile jsIsWhite).reverse

/-- Decimal digit test, the `\d` class of JavaScript regexes. -/
def isDigitChar (c : Char) : Bool :=
  48 ≤ c.toNat && c.toNat ≤ 57

/-- Value of one hexadecimal digit, `none` when the character is not one of
`0-9`, `a-f`, `A-F` (the digits JavaScript `parseInt(_, 16)` consumes). -/
def hexDigitVal (c : Char) : Option Nat :=
  if 48 ≤ c.toNat ∧ c.toNat ≤ 57 then some (c.toNat - 48)
  else if 97 ≤ c.toNat ∧ c.toNat ≤ 102 then some (c.toNat - 87)
  else if 65 ≤ c.toNat ∧ c.toNat ≤ 70 then some (c.toNat - 55)
  else none

/-- Hexadecimal digit test. -/
def isHexDigit (c : Char) : Bool :=
  (hexDigitVal c).isSome

/-- Numeric value of a decimal digit string (accumulator form, most
significant digit first). -/
def decValAux : Str → Nat → Nat
  | [], acc => acc
  | c :: r, acc => decValAux r (10 * acc + (c.toNat - 48))

/-- Numeric value of a decimal digit string, as produced by `Number(...)` or
`parseInt(..., 10)` on an all-digit string. -/
def decVal (s : Str) : Nat := decValAux s 0

/-- Numeric value of a hexadecimal digit string (accumulator form). -/
def hexValAux : Str → Nat → Nat
  | [], acc => acc
  | c :: r, acc => hexValAux r (16 * acc + (hexDigitVal c).getD 0)

/-- Numeric value of a hexadecimal digit string. -/
def hexVal (s : Str) : Nat := hexValAux s 0

/-- JavaScript `parseInt(s, 16)`: skip leading whitespace, optional sign,
optional `0x`/`0X` marker, then the longest run of hex digits; `none` models
`NaN`.  Exactness note: the source only ever compares the result against
`0xffff`, and every value on the far side of double precision is far above
that bound, so modelling the result as an exact integer preserves every test
the source performs. -/
def jsParseIntHex (s : Str) : Option Int :=
  let s1 := s.dropWhile jsIsWhite
  let sgn : Int := if s1.head? = some '-' then -1 else 1
  let s2 : Str := if s1.head? = some '-' ∨ s1.head? = some '+' then s1.tail else s1
  let s3 : Str :=
    if s2.head? = some '0' ∧ (s2.tail.head? = some 'x' ∨ s2.tail.head? = some 'X') then
      s2.tail.tail
    else s2
  let ds := s3.takeWhile isHexDigit
  if ds.isEmpty then none else some (sgn * (hexVal ds : Int))

/-- Little-endian digits of `n` in base `b`, written with structurally
decreasing fuel so that kernel reduction works; any fuel at least `n`
produces the digits of `n` (each division step shrinks a positive number). -/
def digitsRevAux (b : Nat) : Nat → Nat → Str
  | _, 0 => []
  | n, fuel + 1 => if n = 0 then [] else Nat.digitChar (n % b) :: digitsRevAux b (n / b) fuel

/-- Little-endian hexadecimal digits of a natural number (empty for zero). -/
def natHexRev (n : Nat) : Str :=
  digitsRevAux 16 n n

/-- Lowercase hexadecimal rendering of a natural number, no leading zeros:
JavaScript `n.toString(16)` for a non-negative integer. -/
def natToHexStr (n : Nat) : Str :=
  if n = 0 then ['0'] else (natHexRev n).reverse

/-- JavaScript `x.toString(16)` for an integral number of either sign. -/
def intToHexStr (x : Int) : Str :=
  if x < 0 then '-' :: natToHexStr x.natAbs else natToHexStr x.toNat

/-- Little-endian decimal digits of a natural number (empty for zero). -/
def natDecRev (n : Nat) : Str :=
  digitsRevAux 10 n n

/-- Decimal rendering of a natural number: JavaScript `n.toString()` /
template interpolation of a non-negative integer or bigint. -/
def natToDecStr (n : Nat) : Str :=
  if n = 0 then ['0'] else (natDecRev n).reverse

/-- JavaScript decimal rendering of an integer or bigint of either sign. -/
def intToDecStr (x : Int) : Str :=
  if x < 0 then '-' :: natToDecStr x.natAbs else natToDecStr x.toNat

/-- Little-endian binary digits of a natural number (empty for zero). -/
def natBinRev (n : Nat) : Str :=
  digitsRevAux 2 n n

/-- Binary rendering, JavaScript `n.toString(2)` for non-negative `n`. -/
def natToBinStr (n : Nat) : Str :=
  if n = 0 then ['0'] else (natBinRev n).reverse

/-- JavaScript `x.toString(2)` for an integral number of either sign. -/
def intToBinStr (x : Int) : Str :=
  if x < 0 then '-' :: natToBinStr x.natAbs else natToBinStr x.toNat

/-- JavaScript `String.prototype.padStart(t, c)` with a one-character pad. -/
def padStart (t : Nat) (c : Char) (s : Str) : Str :=
  List.replicate (t - s.length) c ++ s

/-- JavaScript `Array.prototype.join` with a one-character separator. -/
def joinSep (sep : Char) : List Str → Str
  | [] => []
  | [g] => g
  | g :: rest => g ++ sep :: joinSep sep rest

/-- Helper for `jsToLocaleString`: insert a comma after every three digits of
a little-endian digit list. -/
def chunk3Rev : Str → Str
  | a :: b :: c :: d :: rest => a :: b :: c :: ',' :: chunk3Rev (d :: rest)
  | s => s

/-- JavaScript `Number.prototype.toLocaleString` on a non-negative integer in
the default `en-US` shape: decimal digits grouped in threes by commas. -/
def jsToLocaleString (n : Nat) : Str :=
  (chunk3Rev (natToDecStr n).reverse).reverse

/-- JavaScript `String.prototype.split` with a one-character separator. -/
def splitOnChar (sep : Char) : Str → List Str
  | [] => [[]]
  | c :: rest =>
    match splitOnChar sep rest with
    | [] => [[]]
    | g :: gs => if c = sep then [] :: g :: gs else (c :: g) :: gs

/-- JavaScript `String.prototype.split('::')`: pieces between leftmost-first
non-overlapping occurrences of two consecutive colons. -/
def splitCC : Str → List Str
  | [] => [[]]
  | [a] => [[a]]
  | a :: b :: rest =>
    if a = ':' ∧ b = ':' then [] :: splitCC rest
    else
      match splitCC (b :: rest) with
      | [] => [[a]]
      | g :: gs => (a :: g) :: gs

/-- Whether two consecutive colons occur anywhere in a string; the absence of
this pattern is what makes `splitCC` return a single piece. -/
def hasAdjColon : Str → Bool
  | [] => false
  | [_] => false
  | a :: b :: rest => (a == ':' && b == ':') || hasAdjColon (b :: rest)

/-- Unsigned 32-bit reinterpretation, JavaScript `ToUint32`. -/
def toUint32 (x : Int) : Nat :=
  (x.emod 4294967296).toNat

/-- Signed reinterpretation of an unsigned 32-bit value. -/
def int32OfUint (n : Nat) : Int :=
  if 2147483648 ≤ n then (n : Int) - 4294967296 else (n : Int)

/-- JavaScript `ToInt32`. -/
def toInt32 (x : Int) : Int :=
  int32OfUint (toUint32 x)

/-- JavaScript `a & b` (32-bit). -/
def jsAnd (a b : Int) : Int :=
  int32OfUint (toUint32 a &&& toUint32 b)

/-- JavaScript `a | b` (32-bit). -/
def jsOr (a b : Int) : Int :=
  int32OfUint (toUint32 a ||| toUint32 b)

/-- JavaScript `~a` (32-bit). -/
def jsNot (a : Int) : Int :=
  int32OfUint (4294967295 - toUint32 a)

/-- JavaScript `a << k` (32-bit; the shift count is taken mod 32). -/
def jsShl (a : Int) (k : Nat) : Int :=
  int32OfUint ((toUint32 a <<< (k % 32)) % 4294967296)

/-- JavaScript `a >> k` (32-bit arithmetic shift; count taken mod 32). -/
def jsShr (a : Int) (k : Nat) : Int :=
  Int.fdiv (toInt32 a) ((2 : Int) ^ (k % 32))

/-- Standard base64 alphabet. -/
def base64Chars : Str :=
  "ABCDEFGHIJKLMNOPQRSTUVWXYZabcdefghijklmnopqrstuvwxyz0123456789+/".toList

/-- Standard base64 of a byte list, as produced by `btoa`. -/
def base64Enc : List Nat → Str
  | [] => []
  | [b1] =>
    [base64Chars.getD (b1 / 4) '?', base64Chars.getD (b1 % 4 * 16) '?', '=', '=']
  | [b1, b2] =>
    [base64Chars.getD (b1 / 4) '?', base64Chars.getD (b1 % 4 * 16 + b2 / 16) '?',
     base64Chars.getD (b2 % 16 * 4) '?', '=']
  | b1 :: b2 :: b3 :: rest =>
    base64Chars.getD (b1 / 4) '?' :: base64Chars.getD (b1 % 4 * 16 + b2 / 16) '?' ::
    base64Chars.getD (b2 % 16 * 4 + b3 / 64) '?' :: base64Chars.getD (b3 % 64) '?' ::
    base64Enc rest

/-! Data model of src/src/types/ipv6.ts. -/

/-- Enum `AddressType`. -/
inductive AddressType where
  | GlobalUnicast | LinkLocal | UniqueLocal | Multicast | Anycast
  | Loopback | Unspecified | IPv4Mapped | IPv4Compatible | Reserved
  | Documentation | Teredo | SixToFour
  deriving DecidableEq, Repr, Inhabited

/-- Enum `AddressScope`. -/
inductive AddressScope where
  | InterfaceLocal | LinkLocal | AdminLocal | SiteLocal | OrganizationLocal | Global
  deriving DecidableEq, Repr, Inhabited

/-- Interface `RFCCompliance`. -/
structure RFCCompliance where
  rfc : Str
  title : Str
  compliant : Bool
  notes : Str
  deriving DecidableEq, Repr, Inhabited

/-- Interface `ParsedIPv6`, the result of `parseIPv6String`.  The `hextets`
are `Int` because the source stores whatever `parseInt` produced, which can be
negative (it only rejects values above `0xffff`). -/
structure ParsedIPv6 where
  hextets : List Int
  prefixLength : Nat
  isValid : Bool
  error : Option Str
  deriving DecidableEq, Repr, Inhabited

/-- Interface `IPv6Address`, the record `parse` returns. -/
structure IPv6Address where
  input : Str
  isValid : Bool
  error : Option Str
  expanded : Str
  compressed : Str
  binary : Str
  hex : Str
  integer : Str
  base64 : Str
  networkAddress : Str
  prefixLength : Nat
  firstAddress : Str
  lastAddress : Str
  totalHosts : Str
  totalSubnets : Str
  reverseDNS : Str
  addressType : AddressType
  scope : AddressScope
  isIPv4Mapped : Bool
  isIPv4Compatible : Bool
  isEUI64 : Bool
  isSLAACCompatible : Bool
  rfcCompliance : List RFCCompliance
  deriving DecidableEq, Repr, Inhabited

namespace IPv6Parser

/-- Invalid `ParsedIPv6` with the given error detail, the shape of every
early-error `return` inside `parseIPv6String`. -/
def mkInvalid (msg : Str) : ParsedIPv6 :=
  { hextets := [], prefixLength := 0, isValid := false, error := some msg }

/-- Line terminators, which `.` of a JavaScript regex does not match. -/
def lineTerm (c : Char) : Bool :=
  c.toNat = 10 || c.toNat = 13 || c.toNat = 8232 || c.toNat = 8233

/-- Match of `^(.+)\/(\d+)$` against the input: succeeds exactly when the
maximal digit suffix is non-empty, is preceded by `/`, and the non-empty part
before that slash contains no line terminator; returns (that part, the digit
suffix).  Greediness of `(.+)` picks this decomposition and no other, because
`\d+` anchored at `$` can only match inside the maximal digit suffix and the
character before it then fails `\/` unless it is the slash found here. -/
def prefixSuffixMatch (s : Str) : Option (Str × Str) :=
  let r := s.reverse
  let ds := r.takeWhile isDigitChar
  match r.dropWhile isDigitChar with
  | '/' :: restRev =>
    if ds.isEmpty then none
    else if restRev.isEmpty then none
    else if restRev.any lineTerm then none
    else some (restRev.reverse, ds.reverse)
  | _ => none

/-- One of `f`/`F`, for the case-insensitive `ffff` of the mapped regex. -/
def isFChar (c : Char) : Bool :=
  c.toNat = 102 || c.toNat = 70

/-- Match of `/^::ffff:(\d+\.\d+\.\d+\.\d+)$/i`; on success the captured
dotted quad is split on `.` and converted by `Number`, exactly the values the
source computes with `.split('.').map(Number)`. -/
def ipv4MappedMatch (s : Str) : Option (List Nat) :=
  match s with
  | ':' :: ':' :: a :: b :: c :: d :: ':' :: rest =>
    if isFChar a && isFChar b && isFChar c && isFChar d then
      let parts := splitOnChar '.' rest
      if parts.length = 4 && parts.all (fun p => !p.isEmpty && p.all isDigitChar) then
        some (parts.map decVal)
      else none
    else none
  | _ => none

/-- The two identical validation loops over colon-separated groups: skip
empty strings, `parseInt(part, 16)`, reject `NaN` and values above `0xffff`,
collect the rest in order.  `none` is the early `return` with error
`Invalid hexadecimal value`. -/
def parseGroups : List Str → Option (List Int)
  | [] => some []
  | g :: rest =>
    if g.isEmpty then parseGroups rest
    else
      match jsParseIntHex g with
      | none => none
      | some v =>
        if 65535 < v then none
        else
          match parseGroups rest with
          | none => none
          | some vs => some (v :: vs)

/-- Count of the non-empty strings in a group list, the source's
`filter(p => p !== '').length`. -/
def countNonEmpty (gs : List Str) : Nat :=
  (gs.filter (fun p => !p.isEmpty)).length

/-- Tail of `parseIPv6String` once the special cases (`::` and the mapped
form) have fallen through: split on `::`, validate the groups on both sides,
insert the elided zero words, and require exactly 8 words.  The JavaScript
`8 - left - right` can be negative, in which case the fill loop runs zero
times; `Nat` subtraction models that directly. -/
def parseColonHex (address : Str) (prefixLength : Nat) : ParsedIPv6 :=
  let parts := splitCC address
  if 2 < parts.length then mkInvalid "Multiple :: not allowed".toList
  else
    let leftRaw := parts.getD 0 []
    let leftParts : List Str :=
      if parts.length = 2 then
        (if leftRaw.isEmpty then [] else splitOnChar ':' leftRaw)
      else splitOnChar ':' leftRaw
    let rightParts : List Str :=
      if parts.length = 2 then
        (let rr := parts.getD 1 []
         if rr.isEmpty then [] else splitOnChar ':' rr)
      else []
    match parseGroups leftParts with
    | none => mkInvalid "Invalid hexadecimal value".toList
    | some leftVals =>
      let zerosNeeded :=
        if parts.length = 2 then 8 - countNonEmpty leftParts - countNonEmpty rightParts
        else 0
      match parseGroups rightParts with
      | none => mkInvalid "Invalid hexadecimal value".toList
      | some rightVals =>
        let hextets := leftVals ++ List.replicate zerosNeeded 0 ++ rightVals
        if hextets.length ≠ 8 then mkInvalid "Invalid IPv6 address format".toList
        else { hextets := hextets, prefixLength := prefixLength, isValid := true, error := none }

/-- Body of `parseIPv6String` after the prefix suffix has been stripped: the
`::` special case, then the IPv4-mapped shorthand (which falls through to
generic parsing when an octet is out of range), then colon-hex parsing. -/
def parseIPv6Body (address : Str) (prefixLength : Nat) : ParsedIPv6 :=
  if address = "::".toList then
    { hextets := List.replicate 8 0, prefixLength := prefixLength, isValid := true, error := none }
  else
    match ipv4MappedMatch address with
    | some ipv4Parts =>
      if ipv4Parts.all (fun part => part ≤ 255) then
        { hextets := [0, 0, 0, 0, 0, 65535,
            jsOr (jsShl ((ipv4Parts.getD 0 0 : Nat) : Int) 8) ((ipv4Parts.getD 1 0 : Nat) : Int),
            jsOr (jsShl ((ipv4Parts.getD 2 0 : Nat) : Int) 8) ((ipv4Parts.getD 3 0 : Nat) : Int)],
          prefixLength := prefixLength, isValid := true, error := none }
      else parseColonHex address prefixLength
    | none => parseColonHex address prefixLength

/-- `parseIPv6String` of ipv6Parser.ts: extract the optional `/length`
suffix, check its range (a `\d+` match is never negative, so only the upper
bound can fail), then parse the body. -/
def parseIPv6String (input : Str) : ParsedIPv6 :=
  match prefixSuffixMatch input with
  | some (addr, ds) =>
    let prefixLength := decVal ds
    if 128 < prefixLength then mkInvalid "Invalid prefix length".toList
    else parseIPv6Body addr prefixLength
  | none => parseIPv6Body input 128

/-- `toExpanded`: each word as 4 zero-padded hex digits, colon-joined. -/
def toExpanded (hx : List Int) : Str :=
  joinSep ':' (hx.map (fun h => padStart 4 '0' (intToHexStr h)))

/-- The state machine of `toCompressed`'s scan for maximal runs of elements
satisfying `p`, parameterised over the element test; returns `(start, length)`
pairs in order of occurrence. -/
def zeroRunsGo (p : α → Bool) : List α → Nat → Option (Nat × Nat) → List (Nat × Nat)
  | [], _, none => []
  | [], _, some cur => [cur]
  | x :: rest, i, cur =>
    if p x then
      match cur with
      | none => zeroRunsGo p rest (i + 1) (some (i, 1))
      | some (s, l) => zeroRunsGo p rest (i + 1) (some (s, l + 1))
    else
      match cur with
      | none => zeroRunsGo p rest (i + 1) none
      | some c => c :: zeroRunsGo p rest (i + 1) none

/-- Maximal runs of elements satisfying `p`, used with `p = (· == "0000")` by
`toCompressed` and with `p = (· == 0)` by the specification rendering. -/
def zeroRunsBy (p : α → Bool) (xs : List α) : List (Nat × Nat) :=
  zeroRunsGo p xs 0 none

/-- The source's `reduce`: keep the first run of strictly greatest length,
starting from the sentinel `{start: -1, length: 0}`. -/
def pickLongest (runs : List (Nat × Nat)) : Int × Nat :=
  runs.foldl (fun longest cur => if longest.2 < cur.2 then ((cur.1 : Int), cur.2) else longest)
    (-1, 0)

/-- Re-rendering of one expanded group without leading zeros, the source's
`parseInt(p, 16).toString(16)`. -/
def renderGroup (g : Str) : Str :=
  match jsParseIntHex g with
  | some v => intToHexStr v
  | none => "NaN".toList

/-- `toCompressed`: render expanded, scan the 4-digit groups for runs of
`0000`, replace the first longest run of length at least 2 by `::`, and strip
leading zeros from the remaining groups. -/
def toCompressed (hx : List Int) : Str :=
  let expanded := toExpanded hx
  let parts := splitOnChar ':' expanded
  let zeroSequences := zeroRunsBy (fun p => p == ['0', '0', '0', '0']) parts
  let longest := pickLongest zeroSequences
  if 1 < longest.2 then
    let s := longest.1.toNat
    let beforeC := (parts.take s).map renderGroup
    let afterC := (parts.drop (s + longest.2)).map renderGroup
    if longest.1 = 0 then ':' :: ':' :: joinSep ':' afterC
    else if s + longest.2 = 8 then joinSep ':' beforeC ++ [':', ':']
    else joinSep ':' beforeC ++ [':', ':'] ++ joinSep ':' afterC
  else
    joinSep ':' (parts.map renderGroup)

/-- `toBinary`: 16 zero-padded bits per word, space-joined. -/
def toBinary (hx : List Int) : Str :=
  joinSep ' ' (hx.map (fun h => padStart 16 '0' (intToBinStr h)))

/-- `toHex`: `0x` then the 32 hex digits, unseparated. -/
def toHex (hx : List Int) : Str :=
  '0' :: 'x' :: (hx.map (fun h => padStart 4 '0' (intToHexStr h))).flatten

/-- `toInteger`: fold the words into one bigint with `<< 16n` and `|`, then
render in decimal. -/
def toInteger (hx : List Int) : Str :=
  intToDecStr (hx.foldl (fun result h => Int.lor (result * 65536) h) 0)

/-- `toBase64`: split each word into two bytes, high first, and `btoa`. -/
def toBase64 (hx : List Int) : Str :=
  base64Enc ((hx.map (fun h => [(jsAnd (jsShr h 8) 255).toNat, (jsAnd h 255).toNat])).flatten)

/-- `getNetworkAddress`: clear the bits beyond the prefix, word by word.  The
source loops `i` from `prefixLength / 16` to 7 mutating a copy; `mapIdx`
renders the same per-index result (the source is only ever applied to 8-word
lists, where the loop never writes past the end). -/
def getNetworkAddress (hx : List Int) (prefixLength : Nat) : List Int :=
  let fullHextets := prefixLength / 16
  let remainingBits := prefixLength % 16
  hx.mapIdx (fun i h =>
    if i < fullHextets then h
    else if i = fullHextets ∧ 0 < remainingBits then
      jsAnd h (jsAnd (jsShl 65535 (16 - remainingBits)) 65535)
    else 0)

/-- `getAddressRange`: first address is the network address, last address has
every host bit set; both rendered compressed. -/
def getAddressRange (hx : List Int) (prefixLength : Nat) : Str × Str :=
  let networkHextets := getNetworkAddress hx prefixLength
  let fullHextets := prefixLength / 16
  let remainingBits := prefixLength % 16
  let lastHextets := networkHextets.mapIdx (fun i h =>
    if i < fullHextets then h
    else if i = fullHextets ∧ 0 < remainingBits then
      jsOr h (jsShl 1 (16 - remainingBits) - 1)
    else 65535)
  (toCompressed networkHextets, toCompressed lastHextets)

/-- `calculateTotalHosts` of ipv6Parser.ts. -/
def calculateTotalHosts (prefixLength : Nat) : Str :=
  let hostBits := 128 - prefixLength
  if 64 ≤ hostBits then
    "2^".toList ++ natToDecStr hostBits ++ " (".toList ++ natToDecStr (2 ^ hostBits) ++ [')']
  else jsToLocaleString (2 ^ hostBits)

/-- `calculateTotalSubnets` of ipv6Parser.ts (with its hardcoded `/48`
allocation assumption; the `subnetBits <= 0` branch is dead because the outer
guard forces `prefixLength - 48` at least 16, and `Nat` subtraction makes the
correspondence exact). -/
def calculateTotalSubnets (prefixLength : Nat) : Str :=
  if 64 ≤ prefixLength then
    let subnetBits := prefixLength - 48
    if subnetBits = 0 then ['1']
    else jsToLocaleString (2 ^ subnetBits)
  else "N/A (prefix too short)".toList

/-- `toReverseDNS`: the hex nibbles of the expanded form, reversed,
dot-joined, suffixed `.ip6.arpa`. -/
def toReverseDNS (hx : List Int) : Str :=
  let expanded := toExpanded hx
  let nibbles := (expanded.filter (fun c => c ≠ ':')).reverse
  List.intersperse '.' nibbles ++ ".ip6.arpa".toList

/-- `getAddressType`: the fixed-priority decision list.  Note the source
tests `hextets[0] === 0xfe80` for link-local: an exact first-word match, not
the `0xffc0` mask of fe80::/10. -/
def getAddressType (hx : List Int) : AddressType :=
  if hx.all (fun h => h == 0) then .Unspecified
  else if (hx.take 7).all (fun h => h == 0) ∧ hx.getD 7 0 = 1 then .Loopback
  else if hx.getD 0 0 = 65152 then .LinkLocal
  else if jsAnd (hx.getD 0 0) 65024 = 64512 then .UniqueLocal
  else if jsAnd (hx.getD 0 0) 65280 = 65280 then .Multicast
  else if (hx.take 5).all (fun h => h == 0) ∧ hx.getD 5 0 = 65535 then .IPv4Mapped
  else if (hx.take 6).all (fun h => h == 0) then .IPv4Compatible
  else if hx.getD 0 0 = 8193 ∧ hx.getD 1 0 = 0 then .Teredo
  else if hx.getD 0 0 = 8194 then .SixToFour
  else if hx.getD 0 0 = 8193 ∧ jsAnd (hx.getD 1 0) 65528 = 3512 then .Documentation
  else if jsAnd (hx.getD 0 0) 57344 = 8192 then .GlobalUnicast
  else .Reserved

/-- `getAddressScope`. -/
def getAddressScope (hx : List Int) (addressType : AddressType) : AddressScope :=
  match addressType with
  | .Loopback => .InterfaceLocal
  | .Unspecified => .InterfaceLocal
  | .LinkLocal => .LinkLocal
  | .UniqueLocal => .OrganizationLocal
  | .GlobalUnicast => .Global
  | .IPv4Mapped => .Global
  | .Multicast =>
    let scopeField := jsAnd (hx.getD 0 0) 15
    if scopeField = 1 then .InterfaceLocal
    else if scopeField = 2 then .LinkLocal
    else if scopeField = 4 then .AdminLocal
    else if scopeField = 5 then .SiteLocal
    else if scopeField = 8 then .OrganizationLocal
    else if scopeField = 14 then .Global
    else .Global
  | _ => .Global

/-- `isIPv4Mapped` flag. -/
def isIPv4Mapped (hx : List Int) : Bool :=
  (hx.take 5).all (fun h => h == 0) && hx.getD 5 0 == 65535

/-- `isIPv4Compatible` flag. -/
def isIPv4Compatible (hx : List Int) : Bool :=
  (hx.take 6).all (fun h => h == 0) &&
  (hx.getD 6 0 != 0 || hx.getD 7 0 != 0) &&
  hx.getD 7 0 != 1

/-- `isEUI64` flag: bigint composition of words 4..7, then a test whether the
16 bits starting 24 bits up equal `0xfffe`.  Bigint `& 0xffffn` on a
two's-complement integer is `emod 2^16`, and `>> 24n` is flooring division. -/
def isEUI64 (hx : List Int) : Bool :=
  let interfaceId :=
    Int.lor (Int.lor (Int.lor ((hx.getD 4 0) * 281474976710656) ((hx.getD 5 0) * 4294967296))
      ((hx.getD 6 0) * 65536)) (hx.getD 7 0)
  (Int.fdiv interfaceId 16777216).emod 65536 == 65534

/-- `getRFCCompliance`. -/
def getRFCCompliance (_hx : List Int) (addressType : AddressType) : List RFCCompliance :=
  let base : List RFCCompliance :=
    [{ rfc := "RFC 4291".toList, title := "IP Version 6 Addressing Architecture".toList,
       compliant := true, notes := "Valid IPv6 address format".toList },
     { rfc := "RFC 5952".toList,
       title := "A Recommendation for IPv6 Address Text Representation".toList,
       compliant := true, notes := "Follows canonical text representation rules".toList }]
  let withULA :=
    if addressType = .UniqueLocal then
      base ++ [{ rfc := "RFC 4193".toList, title := "Unique Local IPv6 Unicast Addresses".toList,
                 compliant := true, notes := "Valid ULA format (fc00::/7)".toList }]
    else base
  if addressType = .LinkLocal then
    withULA ++ [{ rfc := "RFC 4007".toList, title := "IPv6 Scoped Address Architecture".toList,
                  compliant := true, notes := "Valid link-local address (fe80::/10)".toList }]
  else withULA

/-- `parse`: trim, parse, and either populate every derived view or return
the all-defaults invalid record.  The source's `try`/`catch` is not modelled:
no operation in the translated body can throw, so the `catch` arm is dead and
totality of this function is the `never fails fatally` behaviour. -/
def parse (input : Str) : IPv6Address :=
  let trimmedInput := jsTrim input
  let parsed := parseIPv6String trimmedInput
  if parsed.isValid then
    let addressType := getAddressType parsed.hextets
    let networkAddress := toCompressed (getNetworkAddress parsed.hextets parsed.prefixLength)
    let range := getAddressRange parsed.hextets parsed.prefixLength
    { input := trimmedInput
      isValid := true
      error := parsed.error
      expanded := toExpanded parsed.hextets
      compressed := toCompressed parsed.hextets
      binary := toBinary parsed.hextets
      hex := toHex parsed.hextets
      integer := toInteger parsed.hextets
      base64 := toBase64 parsed.hextets
      networkAddress := networkAddress ++ '/' :: natToDecStr parsed.prefixLength
      prefixLength := parsed.prefixLength
      firstAddress := range.1
      lastAddress := range.2
      totalHosts := calculateTotalHosts parsed.prefixLength
      totalSubnets := calculateTotalSubnets parsed.prefixLength
      reverseDNS := toReverseDNS parsed.hextets
      addressType := addressType
      scope := getAddressScope parsed.hextets addressType
      isIPv4Mapped := isIPv4Mapped parsed.hextets
      isIPv4Compatible := isIPv4Compatible parsed.hextets
      isEUI64 := isEUI64 parsed.hextets
      isSLAACCompatible := parsed.prefixLength == 64
      rfcCompliance := getRFCCompliance parsed.hextets addressType }
  else
    { input := trimmedInput
      isValid := false
      error := parsed.error
      expanded := []
      compressed := []
      binary := []
      hex := []
      integer := []
      base64 := []
      networkAddress := []
      prefixLength := 0
      firstAddress := []
      lastAddress := []
      totalHosts := []
      totalSubnets := []
      reverseDNS := []
      addressType := .Reserved
      scope := .Global
      isIPv4Mapped := false
      isIPv4Compatible := false
      isEUI64 := false
      isSLAACCompatible := false
      rfcCompliance := [] }

end IPv6Parser

/-! Data model of the Subnet Planner (src/src/utils/subnetting.ts). -/

/-- Interface `SubnetInfo`. -/
structure SubnetInfo where
  network : Str
  firstAddress : Str
  lastAddress : Str
  broadcastAddress : Str
  totalHosts : Str
  deriving DecidableEq, Repr, Inhabited

/-- Interface `SubnetPlan`.  `totalSubnets` is `Math.pow(2, subnetBits)`,
exact as a double for every power of two in range, hence modelled as `Nat`. -/
structure SubnetPlan where
  originalPrefix : Str
  targetPrefixLength : Nat
  subnets : List SubnetInfo
  totalSubnets : Nat
  deriving DecidableEq, Repr, Inhabited

namespace IPv6Subnetting

/-- `parseHextets`: split an expanded address on `:` and `parseInt(_, 16)`
each group.  The codec only ever feeds it its own expanded rendering, whose
groups are non-empty hex digits, so the `NaN` fallback value is unreachable
there. -/
def parseHextets (expanded : Str) : List Int :=
  (splitOnChar ':' expanded).map (fun g => (jsParseIntHex g).getD 0)

/-- `hextetsToAddress`: 4-digit zero-padded lowercase hex, colon-joined. -/
def hextetsToAddress (hx : List Int) : Str :=
  joinSep ':' (hx.map (fun h => padStart 4 '0' (intToHexStr h)))

/-- The `while` loop inside `calculateSubnetAddress`, with the JavaScript
32-bit semantics of `<<`, `>>`, `&`, `|` and `~` modelled exactly (shift
counts are taken mod 32, operands coerced through `ToInt32`).  The loop
increments `currentHextetIndex` while it stays below 8, so it runs at most
`8 - ch` times; that bound is supplied as structurally decreasing fuel, which
never runs out because `fuel = 0` forces the guard `ch < 8` false. -/
def subnetLoopAux (hexIdx bitsInHextet : Nat) (currentIndex : Int) :
    Nat → List Int → Nat → Nat → List Int
  | 0, result, _, _ => result
  | fuel + 1, result, remaining, ch =>
    if 0 < remaining ∧ ch < 8 then
      let availableBits := 16 - (if ch = hexIdx then bitsInHextet else 0)
      let bitsToUse := min remaining availableBits
      let shift := availableBits - bitsToUse
      let mask := jsShl (jsShl 1 bitsToUse - 1) shift
      let subnetPart := jsAnd (jsShr currentIndex (remaining - bitsToUse)) (jsShl 1 bitsToUse - 1)
      let newWord := jsOr (jsAnd (result.getD ch 0) (jsNot mask)) (jsShl subnetPart shift)
      subnetLoopAux hexIdx bitsInHextet currentIndex fuel (result.set ch newWord)
        (remaining - bitsToUse) (ch + 1)
    else result

/-- The `while` loop of `calculateSubnetAddress`, entered at hextet `ch`. -/
def subnetLoop (result : List Int) (hexIdx bitsInHextet : Nat) (remaining : Nat)
    (currentIndex : Int) (ch : Nat) : List Int :=
  subnetLoopAux hexIdx bitsInHextet currentIndex (8 - ch) result remaining ch

/-- `calculateSubnetAddress`: write the subnet index bits into the range
`[basePrefixLength, targetPrefixLength)` of the base words. -/
def calculateSubnetAddress (baseHextets : List Int) (basePrefixLength targetPrefixLength : Nat)
    (subnetIndex : Nat) : List Int :=
  let subnetBits := targetPrefixLength - basePrefixLength
  let hextetIndex := basePrefixLength / 16
  let bitsInHextet := basePrefixLength % 16
  subnetLoop baseHextets hextetIndex bitsInHextet subnetBits (subnetIndex : Int) hextetIndex

/-- `getSubnetRange` of subnetting.ts: clear (respectively set) the host bits
under the target prefix, rendering both endpoints expanded. -/
def getSubnetRange (hx : List Int) (prefixLength : Nat) : Str × Str :=
  let fullHextets := prefixLength / 16
  let remainingBits := prefixLength % 16
  let firstHextets := hx.mapIdx (fun i h =>
    if i < fullHextets then h
    else if i = fullHextets ∧ 0 < remainingBits then
      jsAnd h (jsNot (jsShl 1 (16 - remainingBits) - 1))
    else 0)
  let lastHextets := hx.mapIdx (fun i h =>
    if i < fullHextets then h
    else if i = fullHextets ∧ 0 < remainingBits then
      jsOr h (jsShl 1 (16 - remainingBits) - 1)
    else 65535)
  (hextetsToAddress firstHextets, hextetsToAddress lastHextets)

/-- `calculateHostCount` of subnetting.ts: bare `2^k` notation from 64 host
bits up, grouped decimal below. -/
def calculateHostCount (prefixLength : Nat) : Str :=
  let hostBits := 128 - prefixLength
  if 64 ≤ hostBits then "2^".toList ++ natToDecStr hostBits
  else jsToLocaleString (2 ^ hostBits)

/-- `calculateSubnets`: validate, size the enumeration (`count ? min(count,
total) : total`, where both `undefined` and `0` are falsy), and emit one
`SubnetInfo` per index in increasing order.  `throw` is modelled as
`Except.error`.  The JS `for` loop is exact for every index below `2^53`;
beyond that the source's float increment stalls and the loop never finishes,
which a terminating model cannot (and no claim needs to) reproduce. -/
def calculateSubnets (prefixStr : Str) (targetPrefixLength : Nat) (count : Option Nat) :
    Except Str SubnetPlan :=
  let parsed := IPv6Parser.parse prefixStr
  if !parsed.isValid then Except.error "Invalid IPv6 prefix".toList
  else if targetPrefixLength ≤ parsed.prefixLength then
    Except.error "Target prefix length must be longer than current prefix".toList
  else if 128 < targetPrefixLength then
    Except.error "Target prefix length cannot exceed 128".toList
  else
    let subnetBits := targetPrefixLength - parsed.prefixLength
    let totalPossibleSubnets := 2 ^ subnetBits
    let subnetsToGenerate :=
      match count with
      | some c => if c = 0 then totalPossibleSubnets else min c totalPossibleSubnets
      | none => totalPossibleSubnets
    let baseHextets := parseHextets parsed.expanded
    let subnets := (List.range subnetsToGenerate).map (fun i =>
      let subnetHextets :=
        calculateSubnetAddress baseHextets parsed.prefixLength targetPrefixLength i
      let network := hextetsToAddress subnetHextets
      let range := getSubnetRange subnetHextets targetPrefixLength
      { network := network ++ '/' :: natToDecStr targetPrefixLength
        firstAddress := range.1
        lastAddress := range.2
        broadcastAddress := range.2
        totalHosts := calculateHostCount targetPrefixLength : SubnetInfo })
    Except.ok { originalPrefix := prefixStr, targetPrefixLength := targetPrefixLength,
                subnets := subnets, totalSubnets := totalPossibleSubnets }

end IPv6Subnetting

/-! Specification-side renderings, used to compare the implementation against
the spec text of sections 4.2 and 4.5. -/

/-- Selection rule of spec section 4.2, stated on a run list: the longest
run, ties broken by the leftmost (earliest) one; `none` when no run
qualifies. -/
def selectRun (runs : List (Nat × Nat)) : Option (Nat × Nat) :=
  runs.foldl (fun acc r =>
    match acc with
    | none => some r
    | some b => if b.2 < r.2 then some r else acc) none

/-- Compressed rendering as worded by spec section 4.2: locate every maximal
run of consecutive zero words, keep those of length at least 2, select the
longest with leftmost tie-break, replace it with `::`, and render every other
word as lowercase hex without leading zeros. -/
def compressedSpec (w : List Int) : Str :=
  match selectRun ((IPv6Parser.zeroRunsBy (fun x => x == 0) w).filter (fun r => 2 ≤ r.2)) with
  | some (s, l) =>
    joinSep ':' ((w.take s).map intToHexStr) ++ [':', ':'] ++
      joinSep ':' ((w.drop (s + l)).map intToHexStr)
  | none => joinSep ':' (w.map intToHexStr)

/-- Value of a word list as one big-endian natural number, 16 bits per
word (words are taken through `toNat`; every use below carries the range
hypothesis making that faithful). -/
def wordsVal : List Int → Nat
  | [] => 0
  | w :: rest => w.toNat * 2 ^ (16 * rest.length) + wordsVal rest

/-! Character-class facts used by the rendering round-trip proofs. -/

/-- Characters differ when their code points do. -/
theorem char_ne_of_toNat_ne {a b : Char} (h : a.toNat ≠ b.toNat) : a ≠ b :=
  fun e => h (congrArg Char.toNat e)

/-- A hex digit's code point lies in one of the three digit ranges. -/
theorem toNat_ranges_of_isHexDigit {c : Char} (h : isHexDigit c = true) :
    (48 ≤ c.toNat ∧ c.toNat ≤ 57) ∨ (97 ≤ c.toNat ∧ c.toNat ≤ 102) ∨
    (65 ≤ c.toNat ∧ c.toNat ≤ 70) := by
  unfold isHexDigit hexDigitVal at h
  split_ifs at h with h1 h2 h3
  · exact Or.inl h1
  · exact Or.inr (Or.inl h2)
  · exact Or.inr (Or.inr h3)
  · simp at h

/-- Hex digits are not whitespace. -/
theorem isHexDigit_not_white {c : Char} (h : isHexDigit c = true) : jsIsWhite c = false := by
  have := toNat_ranges_of_isHexDigit h
  unfold jsIsWhite
  simp only [Bool.or_eq_false_iff, decide_eq_false_iff_not]
  omega

/-- Hex digits are none of the structural characters of the grammar. -/
theorem isHexDigit_ne_special {c : Char} (h : isHexDigit c = true) :
    c ≠ ':' ∧ c ≠ '-' ∧ c ≠ '+' ∧ c ≠ '.' ∧ c ≠ '/' ∧ c ≠ 'x' ∧ c ≠ 'X' := by
  have hr := toNat_ranges_of_isHexDigit h
  refine ⟨char_ne_of_toNat_ne ?_, char_ne_of_toNat_ne ?_, char_ne_of_toNat_ne ?_,
    char_ne_of_toNat_ne ?_, char_ne_of_toNat_ne ?_, char_ne_of_toNat_ne ?_,
    char_ne_of_toNat_ne ?_⟩
  · show c.toNat ≠ 58; omega
  · show c.toNat ≠ 45; omega
  · show c.toNat ≠ 43; omega
  · show c.toNat ≠ 46; omega
  · show c.toNat ≠ 47; omega
  · show c.toNat ≠ 120; omega
  · show c.toNat ≠ 88; omega

/-- Decimal digits are hex digits. -/
theorem isHexDigit_of_isDigitChar {c : Char} (h : isDigitChar c = true) : isHexDigit c = true := by
  unfold isDigitChar at h
  unfold isHexDigit hexDigitVal
  simp only [Bool.and_eq_true, decide_eq_true_eq] at h
  rw [if_pos h]
  rfl

/-- Decimal digits are not whitespace and not structural characters. -/
theorem isDigitChar_ne_special {c : Char} (h : isDigitChar c = true) :
    jsIsWhite c = false ∧ c ≠ ':' ∧ c ≠ '.' ∧ c ≠ '/' := by
  unfold isDigitChar at h
  simp only [Bool.and_eq_true, decide_eq_true_eq] at h
  refine ⟨?_, char_ne_of_toNat_ne ?_, char_ne_of_toNat_ne ?_, char_ne_of_toNat_ne ?_⟩
  · unfold jsIsWhite
    simp only [Bool.or_eq_false_iff, decide_eq_false_iff_not]
    omega
  · show c.toNat ≠ 58; omega
  · show c.toNat ≠ 46; omega
  · show c.toNat ≠ 47; omega

/-- Value of `Nat.digitChar` below 16. -/
theorem hexDigitVal_digitChar {d : Nat} (h : d < 16) : hexDigitVal (Nat.digitChar d) = some d :=
  (by decide : ∀ d ∈ List.range 16, hexDigitVal (Nat.digitChar d) = some d) d
    (List.mem_range.mpr h)

/-- `Nat.digitChar` below 16 is a hex digit. -/
theorem isHexDigit_digitChar {d : Nat} (h : d < 16) : isHexDigit (Nat.digitChar d) = true := by
  unfold isHexDigit
  rw [hexDigitVal_digitChar h]
  rfl

/-- `Nat.digitChar` below 10 is a decimal digit. -/
theorem isDigitChar_digitChar {d : Nat} (h : d < 10) : isDigitChar (Nat.digitChar d) = true :=
  (by decide : ∀ d ∈ List.range 10, isDigitChar (Nat.digitChar d) = true) d
    (List.mem_range.mpr h)

/-- Decimal value of `Nat.digitChar` below 10, in the form `decValAux` uses. -/
theorem digitChar_toNat_sub {d : Nat} (h : d < 10) : (Nat.digitChar d).toNat - 48 = d :=
  (by decide : ∀ d ∈ List.range 10, (Nat.digitChar d).toNat - 48 = d) d
    (List.mem_range.mpr h)

/-! Digit-string value lemmas. -/

/-- Accumulator form of `hexVal`. -/
theorem hexValAux_eq (s : Str) : ∀ acc, hexValAux s acc = acc * 16 ^ s.length + hexVal s := by
  induction s with
  | nil => intro acc; simp [hexValAux, hexVal]
  | cons c r ih =>
    intro acc
    show hexValAux r (16 * acc + (hexDigitVal c).getD 0) = _
    rw [ih]
    have h2 : hexVal (c :: r) = (hexDigitVal c).getD 0 * 16 ^ r.length + hexVal r := by
      show hexValAux r (16 * 0 + (hexDigitVal c).getD 0) = _
      rw [ih]
      ring_nf
    rw [h2]
    simp only [List.length_cons]
    ring

/-- `hexValAux` across an append. -/
theorem hexValAux_append (xs ys : Str) : ∀ acc,
    hexValAux (xs ++ ys) acc = hexValAux ys (hexValAux xs acc) := by
  induction xs with
  | nil => intro acc; rfl
  | cons a r ih => intro acc; exact ih _

/-- `hexVal` across an appended final digit. -/
theorem hexVal_append_singleton (s : Str) (c : Char) :
    hexVal (s ++ [c]) = 16 * hexVal s + (hexDigitVal c).getD 0 := by
  show hexValAux (s ++ [c]) 0 = _
  rw [hexValAux_append]
  rfl

/-- Accumulator form of `decVal`. -/
theorem decValAux_eq (s : Str) : ∀ acc, decValAux s acc = acc * 10 ^ s.length + decVal s := by
  induction s with
  | nil => intro acc; simp [decValAux, decVal]
  | cons c r ih =>
    intro acc
    show decValAux r (10 * acc + (c.toNat - 48)) = _
    rw [ih]
    have h2 : decVal (c :: r) = (c.toNat - 48) * 10 ^ r.length + decVal r := by
      show decValAux r (10 * 0 + (c.toNat - 48)) = _
      rw [ih]
      ring_nf
    rw [h2]
    simp only [List.length_cons]
    ring

/-! Rendering round trips. -/

/-- `takeWhile` keeps a list all of whose elements pass. -/
theorem takeWhile_all {α : Type} {p : α → Bool} :
    ∀ {s : List α}, (∀ c ∈ s, p c = true) → s.takeWhile p = s := by
  intro s
  induction s with
  | nil => intro _; rfl
  | cons a r ih =>
    intro h
    rw [List.takeWhile_cons, h a (List.mem_cons_self _ _),
      ih fun c hc => h c (List.mem_cons_of_mem _ hc)]
    simp

/-- Characters produced by `digitsRevAux` satisfy any property that all the
digit characters of the base satisfy. -/
theorem digitsRevAux_chars {P : Char → Bool} {b : Nat} (hb : 0 < b)
    (hP : ∀ d, d < b → P (Nat.digitChar d) = true) :
    ∀ fuel n, ∀ c ∈ digitsRevAux b n fuel, P c = true := by
  intro fuel
  induction fuel with
  | zero => intro n c hc; simp [digitsRevAux] at hc
  | succ fuel ih =>
    intro n c hc
    by_cases hn : n = 0
    · simp [digitsRevAux, hn] at hc
    · simp only [digitsRevAux, if_neg hn, List.mem_cons] at hc
      rcases hc with rfl | hc
      · exact hP _ (Nat.mod_lt _ hb)
      · exact ih _ _ hc

/-- Hexadecimal digits read back to the number they were produced from. -/
theorem hexVal_digitsRevAux : ∀ fuel n, n ≤ fuel →
    hexVal ((digitsRevAux 16 n fuel).reverse) = n := by
  intro fuel
  induction fuel with
  | zero =>
    intro n hn
    have : n = 0 := by omega
    subst this; rfl
  | succ fuel ih =>
    intro n hn
    by_cases hn0 : n = 0
    · subst hn0; rfl
    · have hcons : digitsRevAux 16 n (fuel + 1)
          = Nat.digitChar (n % 16) :: digitsRevAux 16 (n / 16) fuel := by
        simp [digitsRevAux, hn0]
      have hdiv : n / 16 < n := Nat.div_lt_self (Nat.pos_of_ne_zero hn0) (by norm_num)
      rw [hcons, List.reverse_cons, hexVal_append_singleton, ih (n / 16) (by omega),
        hexDigitVal_digitChar (Nat.mod_lt _ (by norm_num))]
      simp only [Option.getD_some]
      omega

/-- `hexVal` inverts `natToHexStr`. -/
theorem hexVal_natToHexStr (n : Nat) : hexVal (natToHexStr n) = n := by
  by_cases hn : n = 0
  · subst hn; rfl
  · show hexVal (if n = 0 then ['0'] else (natHexRev n).reverse) = n
    rw [if_neg hn]
    exact hexVal_digitsRevAux n n le_rfl

/-- Every character of `natToHexStr` is a hex digit. -/
theorem natToHexStr_chars (n : Nat) : ∀ c ∈ natToHexStr n, isHexDigit c = true := by
  intro c hc
  by_cases hn : n = 0
  · subst hn
    have he : natToHexStr 0 = ['0'] := rfl
    rw [he, List.mem_singleton] at hc
    subst hc; decide
  · rw [natToHexStr, if_neg hn, List.mem_reverse] at hc
    exact digitsRevAux_chars (by norm_num) (fun d hd => isHexDigit_digitChar hd) n n c hc

/-- `natToHexStr` is never empty. -/
theorem natToHexStr_ne_nil (n : Nat) : natToHexStr n ≠ [] := by
  by_cases hn : n = 0
  · subst hn; decide
  · rw [natToHexStr, if_neg hn]
    cases n with
    | zero => exact absurd rfl hn
    | succ m => simp [natHexRev, digitsRevAux]

/-- `decValAux` across an append. -/
theorem decValAux_append (xs ys : Str) : ∀ acc,
    decValAux (xs ++ ys) acc = decValAux ys (decValAux xs acc) := by
  induction xs with
  | nil => intro acc; rfl
  | cons a r ih => intro acc; exact ih _

/-- `decVal` across an appended final digit. -/
theorem decVal_append_singleton (s : Str) (c : Char) :
    decVal (s ++ [c]) = 10 * decVal s + (c.toNat - 48) := by
  show decValAux (s ++ [c]) 0 = _
  rw [decValAux_append]
  rfl

/-- Decimal digits read back to the number they were produced from. -/
theorem decVal_digitsRevAux : ∀ fuel n, n ≤ fuel →
    decVal ((digitsRevAux 10 n fuel).reverse) = n := by
  intro fuel
  induction fuel with
  | zero =>
    intro n hn
    have : n = 0 := by omega
    subst this; rfl
  | succ fuel ih =>
    intro n hn
    by_cases hn0 : n = 0
    · subst hn0; rfl
    · have hcons : digitsRevAux 10 n (fuel + 1)
          = Nat.digitChar (n % 10) :: digitsRevAux 10 (n / 10) fuel := by
        simp [digitsRevAux, hn0]
      have hdiv : n / 10 < n := Nat.div_lt_self (Nat.pos_of_ne_zero hn0) (by norm_num)
      rw [hcons, List.reverse_cons, decVal_append_singleton, ih (n / 10) (by omega),
        digitChar_toNat_sub (Nat.mod_lt _ (by norm_num))]
      omega

/-- `decVal` inverts `natToDecStr`. -/
theorem decVal_natToDecStr (n : Nat) : decVal (natToDecStr n) = n := by
  by_cases hn : n = 0
  · subst hn; rfl
  · show decVal (if n = 0 then ['0'] else (natDecRev n).reverse) = n
    rw [if_neg hn]
    exact decVal_digitsRevAux n n le_rfl

/-- Every character of `natToDecStr` is a decimal digit. -/
theorem natToDecStr_chars (n : Nat) : ∀ c ∈ natToDecStr n, isDigitChar c = true := by
  intro c hc
  by_cases hn : n = 0
  · subst hn
    have he : natToDecStr 0 = ['0'] := rfl
    rw [he, List.mem_singleton] at hc
    subst hc; decide
  · rw [natToDecStr, if_neg hn, List.mem_reverse] at hc
    exact digitsRevAux_chars (by norm_num) (fun d hd => isDigitChar_digitChar hd) n n c hc

/-- `natToDecStr` is never empty. -/
theorem natToDecStr_ne_nil (n : Nat) : natToDecStr n ≠ [] := by
  by_cases hn : n = 0
  · subst hn; decide
  · rw [natToDecStr, if_neg hn]
    cases n with
    | zero => exact absurd rfl hn
    | succ m => simp [natDecRev, digitsRevAux]

/-- `intToHexStr` on a non-negative integer is `natToHexStr` of its value. -/
theorem intToHexStr_nonneg {x : Int} (hx : 0 ≤ x) : intToHexStr x = natToHexStr x.toNat := by
  rw [intToHexStr, if_neg (by omega)]

/-- `jsParseIntHex` on a non-empty all-hex-digit string reads its value. -/
theorem jsParseIntHex_hexDigits (s : Str) (hne : s ≠ [])
    (hall : ∀ c ∈ s, isHexDigit c = true) :
    jsParseIntHex s = some (hexVal s) := by
  obtain ⟨c0, r, rfl⟩ : ∃ c0 r, s = c0 :: r := by
    cases s with
    | nil => exact absurd rfl hne
    | cons a t => exact ⟨_, _, rfl⟩
  have hc0 := hall c0 (List.mem_cons_self _ _)
  have hspecial := isHexDigit_ne_special hc0
  have hdrop : (c0 :: r).dropWhile jsIsWhite = c0 :: r := by
    rw [List.dropWhile_cons, isHexDigit_not_white hc0]
    simp
  have hsign : ¬ ((c0 :: r).head? = some '-' ∨ (c0 :: r).head? = some '+') := by
    simp only [List.head?_cons, Option.some.injEq]
    push_neg
    exact ⟨hspecial.2.1, hspecial.2.2.1⟩
  have hmark : ¬ ((c0 :: r).head? = some '0' ∧
      ((c0 :: r).tail.head? = some 'x' ∨ (c0 :: r).tail.head? = some 'X')) := by
    rintro ⟨-, hx | hx⟩ <;>
    · cases r with
      | nil => simp at hx
      | cons c1 r2 =>
        simp only [List.tail_cons, List.head?_cons, Option.some.injEq] at hx
        have := isHexDigit_ne_special (hall c1 (List.mem_cons_of_mem _ (List.mem_cons_self _ _)))
        subst hx
        first
          | exact this.2.2.2.2.2.1 rfl
          | exact this.2.2.2.2.2.2 rfl
  have hsgn : ¬ ((c0 :: r).head? = some '-') := by
    simp only [List.head?_cons, Option.some.injEq]
    exact hspecial.2.1
  unfold jsParseIntHex
  dsimp only
  rw [hdrop, if_neg hsgn, if_neg hsign, if_neg hmark, takeWhile_all hall]
  simp

/-- `jsParseIntHex` inverts `natToHexStr`. -/
theorem jsParseIntHex_natToHexStr (n : Nat) : jsParseIntHex (natToHexStr n) = some n := by
  rw [jsParseIntHex_hexDigits _ (natToHexStr_ne_nil n) (natToHexStr_chars n),
    hexVal_natToHexStr]

/-- `hexValAux` ignores leading zero padding. -/
theorem hexValAux_replicate_zero (k : Nat) : hexValAux (List.replicate k '0') 0 = 0 := by
  induction k with
  | zero => rfl
  | succ m ih =>
    show hexValAux (List.replicate m '0') (16 * 0 + (hexDigitVal '0').getD 0) = 0
    exact ih

/-- `hexVal` ignores leading zero padding. -/
theorem hexVal_replicate_zero_append (k : Nat) (s : Str) :
    hexVal (List.replicate k '0' ++ s) = hexVal s := by
  show hexValAux (List.replicate k '0' ++ s) 0 = hexValAux s 0
  rw [hexValAux_append, hexValAux_replicate_zero]

/-- `jsParseIntHex` inverts the zero-padded hex rendering of a word. -/
theorem jsParseIntHex_padStart (n : Nat) :
    jsParseIntHex (padStart 4 '0' (natToHexStr n)) = some n := by
  have hall : ∀ c ∈ padStart 4 '0' (natToHexStr n), isHexDigit c = true := by
    intro c hc
    rw [padStart, List.mem_append] at hc
    rcases hc with hc | hc
    · rw [List.eq_of_mem_replicate hc]; decide
    · exact natToHexStr_chars n c hc
  have hne : padStart 4 '0' (natToHexStr n) ≠ [] := by
    rw [padStart]
    intro h
    rcases List.append_eq_nil.mp h with ⟨-, h2⟩
    exact natToHexStr_ne_nil n h2
  rw [jsParseIntHex_hexDigits _ hne hall, padStart, hexVal_replicate_zero_append,
    hexVal_natToHexStr]

/-! Splitting and joining. -/

/-- `splitOnChar` never returns the empty list. -/
theorem splitOnChar_ne_nil (sep : Char) (s : Str) : splitOnChar sep s ≠ [] := by
  cases s with
  | nil => simp [splitOnChar]
  | cons c rest =>
    simp only [splitOnChar]
    split
    · simp
    · split <;> simp

/-- Splitting a string that starts with the separator. -/
theorem splitOnChar_cons_sep (sep : Char) (t : Str) :
    splitOnChar sep (sep :: t) = [] :: splitOnChar sep t := by
  simp only [splitOnChar]
  split
  · rename_i heq
    exact absurd heq (splitOnChar_ne_nil sep t)
  · rename_i g gs heq
    simp [← heq]

/-- Splitting a separator-free piece followed by the separator. -/
theorem splitOnChar_free_append (sep : Char) (g t : Str) (hg : ∀ c ∈ g, c ≠ sep) :
    splitOnChar sep (g ++ sep :: t) = g :: splitOnChar sep t := by
  induction g with
  | nil => exact splitOnChar_cons_sep sep t
  | cons a g2 ih =>
    have ha : a ≠ sep := hg a (List.mem_cons_self _ _)
    have ih2 := ih (fun c hc => hg c (List.mem_cons_of_mem _ hc))
    show splitOnChar sep (a :: (g2 ++ sep :: t)) = _
    simp only [splitOnChar]
    rw [ih2]
    simp [ha]

/-- Splitting a separator-free string returns the single piece. -/
theorem splitOnChar_no_sep (sep : Char) (s : Str) (h : ∀ c ∈ s, c ≠ sep) :
    splitOnChar sep s = [s] := by
  induction s with
  | nil => rfl
  | cons a t ih =>
    have ha : a ≠ sep := h a (List.mem_cons_self _ _)
    simp only [splitOnChar]
    rw [ih (fun c hc => h c (List.mem_cons_of_mem _ hc))]
    simp [ha]

/-- Splitting inverts joining when no piece contains the separator. -/
theorem splitOnChar_joinSep (sep : Char) : ∀ (gs : List Str), gs ≠ [] →
    (∀ g ∈ gs, ∀ c ∈ g, c ≠ sep) → splitOnChar sep (joinSep sep gs) = gs := by
  intro gs
  induction gs with
  | nil => intro h; exact absurd rfl h
  | cons g rest ih =>
    intro _ hfree
    cases rest with
    | nil =>
      show splitOnChar sep g = [g]
      exact splitOnChar_no_sep sep g (hfree g (List.mem_cons_self _ _))
    | cons r0 r1 =>
      show splitOnChar sep (g ++ sep :: joinSep sep (r0 :: r1)) = _
      rw [splitOnChar_free_append sep g _ (hfree g (List.mem_cons_self _ _)),
        ih (by simp) (fun g2 hg2 => hfree g2 (List.mem_cons_of_mem _ hg2))]

/-- `hasAdjColon` of a prefix of a colon-pair-free string. -/
theorem hasAdjColon_prefix : ∀ {xs ys : Str},
    hasAdjColon (xs ++ ys) = false → hasAdjColon xs = false := by
  intro xs
  induction xs with
  | nil => intro ys _; rfl
  | cons a rest ih =>
    intro ys h
    cases rest with
    | nil => rfl
    | cons b rest2 =>
      simp only [List.cons_append, hasAdjColon, Bool.or_eq_false_iff] at h ⊢
      exact ⟨h.1, @ih ys h.2⟩

/-- Prepending a colon-free string does not create adjacent colons. -/
theorem hasAdjColon_free_append (g : Str) (hg : ∀ c ∈ g, c ≠ ':') :
    ∀ t, hasAdjColon (g ++ t) = hasAdjColon t := by
  induction g with
  | nil => intro t; rfl
  | cons a g2 ih =>
    intro t
    have ha : a ≠ ':' := hg a (List.mem_cons_self _ _)
    have ih2 := ih (fun c hc => hg c (List.mem_cons_of_mem _ hc))
    cases g2 with
    | nil =>
      cases t with
      | nil => rfl
      | cons y t2 =>
        show hasAdjColon (a :: y :: t2) = hasAdjColon (y :: t2)
        simp [hasAdjColon, ha]
    | cons b g3 =>
      show hasAdjColon (a :: b :: (g3 ++ t)) = hasAdjColon t
      have hb := ih2 t
      simp only [List.cons_append] at hb
      simp [hasAdjColon, ha, hb]

/-- Joining non-empty colon-free groups, even followed by one more colon,
never produces two adjacent colons. -/
theorem hasAdjColon_joinSep_colon : ∀ (gs : List Str),
    (∀ g ∈ gs, g ≠ [] ∧ ∀ c ∈ g, c ≠ ':') →
    hasAdjColon (joinSep ':' gs ++ [':']) = false := by
  intro gs
  induction gs with
  | nil => intro _; rfl
  | cons g rest ih =>
    intro h
    have hgfree := (h g (List.mem_cons_self _ _)).2
    cases rest with
    | nil =>
      show hasAdjColon (g ++ [':']) = false
      rw [hasAdjColon_free_append g hgfree]
      rfl
    | cons r0 r1 =>
      obtain ⟨a, g2, rfl⟩ : ∃ a g2, r0 = a :: g2 := by
        rcases r0 with _ | ⟨a, g2⟩
        · exact absurd rfl (h [] (List.mem_cons_of_mem _ (List.mem_cons_self _ _))).1
        · exact ⟨a, g2, rfl⟩
      have ha : a ≠ ':' :=
        (h (a :: g2) (List.mem_cons_of_mem _ (List.mem_cons_self _ _))).2 a
          (List.mem_cons_self _ _)
      have hihdr := ih (fun g2 hg2 => h g2 (List.mem_cons_of_mem _ hg2))
      have hjoin : ∃ X, joinSep ':' ((a :: g2) :: r1) = a :: X := by
        cases r1 with
        | nil => exact ⟨g2, rfl⟩
        | cons s1 s2 => exact ⟨g2 ++ ':' :: joinSep ':' (s1 :: s2), rfl⟩
      obtain ⟨X, hX⟩ := hjoin
      show hasAdjColon (g ++ ':' :: joinSep ':' ((a :: g2) :: r1) ++ [':']) = false
      rw [List.append_assoc, hasAdjColon_free_append g hgfree, hX]
      rw [hX] at hihdr
      show hasAdjColon (':' :: a :: (X ++ [':'])) = false
      simp only [hasAdjColon, Bool.or_eq_false_iff]
      constructor
      · simp [ha]
      · exact hihdr

/-- Joining non-empty colon-free groups never produces adjacent colons. -/
theorem hasAdjColon_joinSep (gs : List Str)
    (h : ∀ g ∈ gs, g ≠ [] ∧ ∀ c ∈ g, c ≠ ':') :
    hasAdjColon (joinSep ':' gs) = false :=
  hasAdjColon_prefix (hasAdjColon_joinSep_colon gs h)

/-- One-step unfolding of `splitCC` at a leading `::`. -/
theorem splitCC_eq_sep (rest : Str) : splitCC (':' :: ':' :: rest) = [] :: splitCC rest := by
  conv_lhs => rw [splitCC.eq_def]
  dsimp only
  rw [if_pos ⟨rfl, rfl⟩]

/-- One-step unfolding of `splitCC` when the two leading characters are not
both colons. -/
theorem splitCC_eq_cons (a b : Char) (rest : Str) (h : ¬(a = ':' ∧ b = ':')) :
    splitCC (a :: b :: rest) =
      (match splitCC (b :: rest) with
        | [] => [[a]]
        | g :: gs => (a :: g) :: gs) := by
  conv_lhs => rw [splitCC.eq_def]
  dsimp only
  rw [if_neg h]

/-- `splitCC` never returns the empty list. -/
theorem splitCC_ne_nil : ∀ (s : Str), splitCC s ≠ [] := by
  intro s
  induction s using splitCC.induct with
  | case1 => simp [splitCC]
  | case2 a => simp [splitCC]
  | case3 a b rest hg ih =>
    obtain ⟨rfl, rfl⟩ := hg
    rw [splitCC_eq_sep]
    simp
  | case4 a b rest hg hnil ih => exact absurd hnil ih
  | case5 a b rest hg g gs heq ih =>
    rw [splitCC_eq_cons a b rest hg, heq]
    simp

/-- Without adjacent colons, `splitCC` returns a single piece. -/
theorem splitCC_no_adj : ∀ (s : Str), hasAdjColon s = false → splitCC s = [s] := by
  intro s
  induction s using splitCC.induct with
  | case1 => intro _; rfl
  | case2 a => intro _; rfl
  | case3 a b rest hg ih =>
    intro hadj
    obtain ⟨rfl, rfl⟩ := hg
    simp [hasAdjColon] at hadj
  | case4 a b rest hg hnil ih =>
    exact absurd hnil (splitCC_ne_nil _)
  | case5 a b rest hg g gs heq ih =>
    intro hadj
    rw [hasAdjColon] at hadj
    simp only [Bool.or_eq_false_iff] at hadj
    have hone := ih hadj.2
    rw [heq] at hone
    obtain ⟨rfl, rfl⟩ : g = b :: rest ∧ gs = [] := by
      injection hone with h1 h2
      exact ⟨h1, h2⟩
    rw [splitCC_eq_cons a b rest hg, heq]

/-- Splitting on `::` around the first separator: a left part free of
adjacent colons and not ending with a colon comes back as the first piece. -/
theorem splitCC_append_sep : ∀ (A : Str), hasAdjColon (A ++ [':']) = false →
    ∀ B, splitCC (A ++ ':' :: ':' :: B) = A :: splitCC B := by
  intro A
  induction A using splitCC.induct with
  | case1 =>
    intro _ B
    show splitCC (':' :: ':' :: B) = [] :: splitCC B
    exact splitCC_eq_sep B
  | case2 a =>
    intro hadj B
    have ha : ¬(a = ':' ∧ ':' = ':') := by
      rw [show [a] ++ [':'] = [a, ':'] from rfl, hasAdjColon] at hadj
      simp only [Bool.or_eq_false_iff, Bool.and_eq_false_iff] at hadj
      rcases hadj.1 with h1 | h1 <;> simp_all
    show splitCC (a :: ':' :: ':' :: B) = [a] :: splitCC B
    rw [splitCC_eq_cons a ':' (':' :: B) ha, splitCC_eq_sep B]
  | case3 a b rest hg ih =>
    intro hadj B
    exfalso
    obtain ⟨rfl, rfl⟩ := hg
    simp [hasAdjColon] at hadj
  | case4 a b rest hg hnil ih =>
    exact absurd hnil (splitCC_ne_nil _)
  | case5 a b rest hg g gs heq ih =>
    intro hadj B
    simp only [List.cons_append, hasAdjColon, Bool.or_eq_false_iff] at hadj
    have hprev : hasAdjColon ((b :: rest) ++ [':']) = false := by
      simpa using hadj.2
    have ihx := ih hprev B
    show splitCC (a :: b :: (rest ++ ':' :: ':' :: B)) = (a :: b :: rest) :: splitCC B
    rw [splitCC_eq_cons a b (rest ++ ':' :: ':' :: B) hg,
      show b :: (rest ++ ':' :: ':' :: B) = (b :: rest) ++ ':' :: ':' :: B from rfl, ihx]

/-! Evaluation of the parser on well-formed rendered strings. -/

/-- Membership in a join: every character is the separator or from a piece. -/
theorem mem_joinSep {sep : Char} {c : Char} : ∀ {gs : List Str},
    c ∈ joinSep sep gs → c = sep ∨ ∃ g ∈ gs, c ∈ g := by
  intro gs
  induction gs with
  | nil => intro h; simp [joinSep] at h
  | cons g rest ih =>
    intro h
    cases rest with
    | nil =>
      exact Or.inr ⟨g, List.mem_cons_self _ _, h⟩
    | cons r0 r1 =>
      rw [show joinSep sep (g :: r0 :: r1) = g ++ sep :: joinSep sep (r0 :: r1) from rfl,
        List.mem_append, List.mem_cons] at h
      rcases h with h | h | h
      · exact Or.inr ⟨g, List.mem_cons_self _ _, h⟩
      · exact Or.inl h
      · rcases ih h with h2 | ⟨g2, hg2, hc2⟩
        · exact Or.inl h2
        · exact Or.inr ⟨g2, List.mem_cons_of_mem _ hg2, hc2⟩

/-- `jsTrim` leaves a whitespace-free string unchanged. -/
theorem jsTrim_eq_self (s : Str) (h : ∀ c ∈ s, jsIsWhite c = false) : jsTrim s = s := by
  have h1 : s.dropWhile jsIsWhite = s := by
    cases s with
    | nil => rfl
    | cons a t =>
      rw [List.dropWhile_cons, h a (List.mem_cons_self _ _)]
      simp
  have h2 : s.reverse.dropWhile jsIsWhite = s.reverse := by
    cases hrev : s.reverse with
    | nil => rfl
    | cons a t =>
      rw [List.dropWhile_cons, h a (by rw [← List.mem_reverse, hrev]; exact List.mem_cons_self _ _)]
      simp
  rw [jsTrim, h1, h2, List.reverse_reverse]

/-- A slash-free string does not match the prefix-length regex. -/
theorem prefixSuffixMatch_none (s : Str) (h : '/' ∉ s) :
    IPv6Parser.prefixSuffixMatch s = none := by
  unfold IPv6Parser.prefixSuffixMatch
  dsimp only
  split
  · rename_i heq
    exfalso
    apply h
    rw [← List.mem_reverse]
    have hsub : List.Sublist (s.reverse.dropWhile isDigitChar) s.reverse :=
      List.dropWhile_sublist _
    rw [heq] at hsub
    exact hsub.mem (List.mem_cons_self _ _)
  · rfl

/-- The IPv4-mapped regex needs a leading colon. -/
theorem ipv4MappedMatch_none_head (s : Str) (h : s.head? ≠ some ':') :
    IPv6Parser.ipv4MappedMatch s = none := by
  unfold IPv6Parser.ipv4MappedMatch
  split
  · simp at h
  · rfl

/-- The IPv4-mapped regex needs a dotted quad. -/
theorem ipv4MappedMatch_none_dot (s : Str) (h : '.' ∉ s) :
    IPv6Parser.ipv4MappedMatch s = none := by
  unfold IPv6Parser.ipv4MappedMatch
  split
  · rename_i a b c d rest2
    have hrest : '.' ∉ rest2 := fun hm => h (by simp [hm])
    have hsplit : splitOnChar '.' rest2 = [rest2] :=
      splitOnChar_no_sep '.' rest2 (fun c hc he => hrest (he ▸ hc))
    rw [hsplit]
    simp
  · rfl

/-- `parseGroups` of rendered in-range words: the zero-padded form. -/
theorem parseGroups_padded (ws : List Int) (hr : ∀ x ∈ ws, 0 ≤ x ∧ x ≤ 65535) :
    IPv6Parser.parseGroups (ws.map (fun h => padStart 4 '0' (intToHexStr h))) = some ws := by
  induction ws with
  | nil => rfl
  | cons w rest ih =>
    have hw := hr w (List.mem_cons_self _ _)
    have hemp : (padStart 4 '0' (intToHexStr w)).isEmpty = false := by
      rw [intToHexStr_nonneg hw.1, padStart]
      rcases hx : natToHexStr w.toNat with _ | ⟨c, t⟩
      · exact absurd hx (natToHexStr_ne_nil _)
      · simp
    have hparse : jsParseIntHex (padStart 4 '0' (intToHexStr w)) = some w := by
      rw [intToHexStr_nonneg hw.1, jsParseIntHex_padStart]
      exact congrArg some (Int.toNat_of_nonneg hw.1)
    rw [List.map_cons]
    show IPv6Parser.parseGroups (_ :: _) = _
    unfold IPv6Parser.parseGroups
    simp only [hemp, Bool.false_eq_true, if_false]
    rw [hparse]
    dsimp only
    have hle : ¬ ((65535 : Int) < w) := by omega
    rw [if_neg hle, ih (fun x hx => hr x (List.mem_cons_of_mem _ hx))]

/-- `parseGroups` of rendered in-range words: the unpadded form. -/
theorem parseGroups_unpadded (ws : List Int) (hr : ∀ x ∈ ws, 0 ≤ x ∧ x ≤ 65535) :
    IPv6Parser.parseGroups (ws.map (fun h => intToHexStr h)) = some ws := by
  induction ws with
  | nil => rfl
  | cons w rest ih =>
    have hw := hr w (List.mem_cons_self _ _)
    have hemp : (intToHexStr w).isEmpty = false := by
      rw [intToHexStr_nonneg hw.1]
      rcases hx : natToHexStr w.toNat with _ | ⟨c, t⟩
      · exact absurd hx (natToHexStr_ne_nil _)
      · simp
    have hparse : jsParseIntHex (intToHexStr w) = some w := by
      rw [intToHexStr_nonneg hw.1, jsParseIntHex_natToHexStr]
      exact congrArg some (Int.toNat_of_nonneg hw.1)
    rw [List.map_cons]
    show IPv6Parser.parseGroups (_ :: _) = _
    unfold IPv6Parser.parseGroups
    simp only [hemp, Bool.false_eq_true, if_false]
    rw [hparse]
    dsimp only
    have hle : ¬ ((65535 : Int) < w) := by omega
    rw [if_neg hle, ih (fun x hx => hr x (List.mem_cons_of_mem _ hx))]

/-- The padded group of an in-range word: non-empty, hex digits only. -/
theorem padded_group_wf (w : Int) (hw : 0 ≤ w ∧ w ≤ 65535) :
    padStart 4 '0' (intToHexStr w) ≠ [] ∧
    ∀ c ∈ padStart 4 '0' (intToHexStr w), isHexDigit c = true := by
  rw [intToHexStr_nonneg hw.1]
  constructor
  · rw [padStart]
    intro h
    rcases List.append_eq_nil.mp h with ⟨-, h2⟩
    exact natToHexStr_ne_nil _ h2
  · intro c hc
    rw [padStart, List.mem_append] at hc
    rcases hc with hc | hc
    · rw [List.eq_of_mem_replicate hc]; decide
    · exact natToHexStr_chars _ c hc

/-- The unpadded group of an in-range word: non-empty, hex digits only. -/
theorem unpadded_group_wf (w : Int) (hw : 0 ≤ w ∧ w ≤ 65535) :
    intToHexStr w ≠ [] ∧ ∀ c ∈ intToHexStr w, isHexDigit c = true := by
  rw [intToHexStr_nonneg hw.1]
  exact ⟨natToHexStr_ne_nil _, natToHexStr_chars _⟩

/-- Evaluation of `parseIPv6String` on a colon-join of 8 non-empty groups
containing no colon, slash or whitespace: the input reaches the group
validation loop and the result is determined by `parseGroups`. -/
theorem parseIPv6String_plain (gs : List Str) (hlen : gs.length = 8)
    (hg : ∀ g ∈ gs, g ≠ [] ∧ ∀ c ∈ g, c ≠ ':' ∧ c ≠ '/' ∧ jsIsWhite c = false) :
    IPv6Parser.parseIPv6String (joinSep ':' gs) =
      (match IPv6Parser.parseGroups gs with
       | none => IPv6Parser.mkInvalid "Invalid hexadecimal value".toList
       | some vs =>
         if vs.length ≠ 8 then IPv6Parser.mkInvalid "Invalid IPv6 address format".toList
         else { hextets := vs, prefixLength := 128, isValid := true, error := none }) := by
  have hne : gs ≠ [] := by
    intro h
    rw [h] at hlen
    simp at hlen
  have hfree : ∀ g ∈ gs, ∀ c ∈ g, c ≠ ':' := fun g hgm c hc => ((hg g hgm).2 c hc).1
  have hnil : ∀ g ∈ gs, g ≠ [] := fun g hgm => (hg g hgm).1
  have hslash : '/' ∉ joinSep ':' gs := by
    intro hmem
    rcases mem_joinSep hmem with h | ⟨g, hgm, hc⟩
    · exact absurd h (by decide)
    · exact ((hg g hgm).2 _ hc).2.1 rfl
  obtain ⟨g0, grest, rfl⟩ : ∃ g0 grest, gs = g0 :: grest := by
    cases gs with
    | nil => exact absurd rfl hne
    | cons a b => exact ⟨_, _, rfl⟩
  obtain ⟨c0, g0t, rfl⟩ : ∃ c0 g0t, g0 = c0 :: g0t := by
    rcases hG : g0 with _ | ⟨c0, g0t⟩
    · exact absurd hG (hnil g0 (by rw [hG]; exact List.mem_cons_self _ _))
    · exact ⟨_, _, rfl⟩
  have hc0 : c0 ≠ ':' := hfree _ (List.mem_cons_self _ _) c0 (List.mem_cons_self _ _)
  obtain ⟨X, hX⟩ : ∃ X, joinSep ':' ((c0 :: g0t) :: grest) = c0 :: X := by
    cases grest with
    | nil => exact ⟨g0t, rfl⟩
    | cons s1 s2 => exact ⟨g0t ++ ':' :: joinSep ':' (s1 :: s2), rfl⟩
  have hsplitcc : splitCC (joinSep ':' ((c0 :: g0t) :: grest)) =
      [joinSep ':' ((c0 :: g0t) :: grest)] :=
    splitCC_no_adj _ (hasAdjColon_joinSep _ (fun g hgm => ⟨hnil g hgm, hfree g hgm⟩))
  have hsplit1 : splitOnChar ':' (joinSep ':' ((c0 :: g0t) :: grest)) =
      (c0 :: g0t) :: grest :=
    splitOnChar_joinSep ':' _ hne hfree
  unfold IPv6Parser.parseIPv6String
  rw [prefixSuffixMatch_none _ hslash]
  unfold IPv6Parser.parseIPv6Body
  rw [if_neg (by
    rw [hX]
    intro h
    injection h with h1 h2
    exact hc0 h1)]
  rw [ipv4MappedMatch_none_head _ (by rw [hX]; simp [hc0])]
  unfold IPv6Parser.parseColonHex
  dsimp only
  rw [hsplitcc]
  have hL : ([joinSep ':' ((c0 :: g0t) :: grest)] : List Str).length = 1 := rfl
  rw [hL]
  rw [if_neg (by omega)]
  rw [if_neg (by omega)]
  simp only [List.getD_cons_zero]
  rw [hsplit1]
  rw [if_neg (by omega)]
  cases hpg : IPv6Parser.parseGroups ((c0 :: g0t) :: grest) with
  | none => rfl
  | some vs =>
    dsimp only
    have hnil2 : IPv6Parser.parseGroups ([] : List Str) = some [] := rfl
    rw [hnil2]
    simp only [List.replicate, List.append_nil]

/-! Claim C1 — invalid parses carry a non-empty error and default fields. -/

/-- Helper for C1: every invalid result of `parseColonHex` carries one of the
source's literal, non-empty error strings. -/
theorem parseColonHex_invalid_error (address : Str) (pl : Nat) :
    (IPv6Parser.parseColonHex address pl).isValid = false →
    ∃ m, (IPv6Parser.parseColonHex address pl).error = some m ∧ m ≠ [] := by
  unfold IPv6Parser.parseColonHex
  dsimp only
  repeat' split
  all_goals intro h
  all_goals first
    | exact ⟨_, rfl, by decide⟩
    | exact absurd h (by simp)

/-- Helper for C1: every invalid result of `parseIPv6Body` carries a
non-empty error string. -/
theorem parseIPv6Body_invalid_error (address : Str) (pl : Nat) :
    (IPv6Parser.parseIPv6Body address pl).isValid = false →
    ∃ m, (IPv6Parser.parseIPv6Body address pl).error = some m ∧ m ≠ [] := by
  unfold IPv6Parser.parseIPv6Body
  repeat' split
  all_goals intro h
  all_goals first
    | exact parseColonHex_invalid_error _ _ h
    | exact absurd h (by simp)

/-- Helper for C1: every invalid result of `parseIPv6String` carries a
non-empty error string. -/
theorem parseIPv6String_invalid_error (input : Str) :
    (IPv6Parser.parseIPv6String input).isValid = false →
    ∃ m, (IPv6Parser.parseIPv6String input).error = some m ∧ m ≠ [] := by
  unfold IPv6Parser.parseIPv6String
  split
  · dsimp only
    split
    · exact fun _ => ⟨_, rfl, by decide⟩
    · exact parseIPv6Body_invalid_error _ _
  · exact parseIPv6Body_invalid_error _ _

/-- C1: `parse` is a total function into `IPv6Address` (the translated body
has no throwing operation, so nothing escapes the codec boundary), and
whenever it reports `isValid = false` the record carries a non-empty error
detail and every derived field at its empty or default value — never a
partially populated record. -/
theorem c1_parse_invalid_defaults (input : Str)
    (h : (IPv6Parser.parse input).isValid = false) :
    (∃ msg, (IPv6Parser.parse input).error = some msg ∧ msg ≠ []) ∧
    (IPv6Parser.parse input).expanded = [] ∧
    (IPv6Parser.parse input).compressed = [] ∧
    (IPv6Parser.parse input).binary = [] ∧
    (IPv6Parser.parse input).hex = [] ∧
    (IPv6Parser.parse input).integer = [] ∧
    (IPv6Parser.parse input).base64 = [] ∧
    (IPv6Parser.parse input).networkAddress = [] ∧
    (IPv6Parser.parse input).prefixLength = 0 ∧
    (IPv6Parser.parse input).firstAddress = [] ∧
    (IPv6Parser.parse input).lastAddress = [] ∧
    (IPv6Parser.parse input).totalHosts = [] ∧
    (IPv6Parser.parse input).totalSubnets = [] ∧
    (IPv6Parser.parse input).reverseDNS = [] ∧
    (IPv6Parser.parse input).addressType = AddressType.Reserved ∧
    (IPv6Parser.parse input).scope = AddressScope.Global ∧
    (IPv6Parser.parse input).isIPv4Mapped = false ∧
    (IPv6Parser.parse input).isIPv4Compatible = false ∧
    (IPv6Parser.parse input).isEUI64 = false ∧
    (IPv6Parser.parse input).isSLAACCompatible = false ∧
    (IPv6Parser.parse input).rfcCompliance = [] := by
  cases hv : (IPv6Parser.parseIPv6String (jsTrim input)).isValid with
  | true =>
    exfalso
    simp [IPv6Parser.parse, hv] at h
  | false =>
    simp only [IPv6Parser.parse, hv] at h ⊢
    simp only [Bool.false_eq_true, if_false] at h ⊢
    refine ⟨?_, by simp⟩
    exact parseIPv6String_invalid_error _ hv

/-- C1 witness: the invalid-input guarantees evaluated at the concrete
rejected input `bogus`. -/
theorem c1_parse_invalid_defaults_witness :
    (∃ msg, (IPv6Parser.parse "bogus".toList).error = some msg ∧ msg ≠ []) ∧
    (IPv6Parser.parse "bogus".toList).expanded = [] ∧
    (IPv6Parser.parse "bogus".toList).compressed = [] ∧
    (IPv6Parser.parse "bogus".toList).binary = [] ∧
    (IPv6Parser.parse "bogus".toList).hex = [] ∧
    (IPv6Parser.parse "bogus".toList).integer = [] ∧
    (IPv6Parser.parse "bogus".toList).base64 = [] ∧
    (IPv6Parser.parse "bogus".toList).networkAddress = [] ∧
    (IPv6Parser.parse "bogus".toList).prefixLength = 0 ∧
    (IPv6Parser.parse "bogus".toList).firstAddress = [] ∧
    (IPv6Parser.parse "bogus".toList).lastAddress = [] ∧
    (IPv6Parser.parse "bogus".toList).totalHosts = [] ∧
    (IPv6Parser.parse "bogus".toList).totalSubnets = [] ∧
    (IPv6Parser.parse "bogus".toList).reverseDNS = [] ∧
    (IPv6Parser.parse "bogus".toList).addressType = AddressType.Reserved ∧
    (IPv6Parser.parse "bogus".toList).scope = AddressScope.Global ∧
    (IPv6Parser.parse "bogus".toList).isIPv4Mapped = false ∧
    (IPv6Parser.parse "bogus".toList).isIPv4Compatible = false ∧
    (IPv6Parser.parse "bogus".toList).isEUI64 = false ∧
    (IPv6Parser.parse "bogus".toList).isSLAACCompatible = false ∧
    (IPv6Parser.parse "bogus".toList).rfcCompliance = [] :=
  c1_parse_invalid_defaults "bogus".toList (by decide)

/-! Claim C2 — evaluation at the failing input. -/

/-- C2: the code accepts `::-1` as a valid address whose word list is
`[0,0,0,0,0,0,0,-1]`: exactly 8 words, but one of them is negative, because
the hextet check `isNaN(hexValue) || hexValue > 0xffff` has no lower bound
while `parseInt('-1', 16)` is `-1`.  This contradicts the claimed invariant
that every `valid=true` record carries 8 words each in `[0, 0xFFFF]`. -/
theorem c2_negative_hextet :
    IPv6Parser.parseIPv6String "::-1".toList =
      { hextets := [0, 0, 0, 0, 0, 0, 0, -1], prefixLength := 128,
        isValid := true, error := none } ∧
    (IPv6Parser.parse "::-1".toList).isValid = true := by
  exact ⟨by decide, by decide⟩

/-! Claim C5 — counterexample. -/

/-- C5 counterexample: the claim says a colon-separated group of five or more
digits makes `parse` fail with the InvalidHextet error; but `parseInt` does
not bound the digit count, so the five-digit group `00008` is accepted and
the input parses as valid with last word 8. -/
theorem c5_counterexample :
    (IPv6Parser.parse "1:2:3:4:5:6:7:00008".toList).isValid = true ∧
    (IPv6Parser.parseIPv6String "1:2:3:4:5:6:7:00008".toList).hextets =
      [1, 2, 3, 4, 5, 6, 7, 8] := by
  exact ⟨by decide, by decide⟩

/-! Claim C6 — counterexample. -/

/-- C6 counterexample: the claim says an out-of-range octet in the mapped
shorthand makes `parse` fail with InvalidIPv4Embed and is never accepted
under another interpretation; but the source merely falls through to generic
parsing, where `parseInt('999.1.1.1', 16)` reads the hex digits `999`, so
`::ffff:999.1.1.1` parses as valid with words `[0,0,0,0,0,0,0xffff,0x999]`. -/
theorem c6_counterexample :
    (IPv6Parser.parse "::ffff:999.1.1.1".toList).isValid = true ∧
    (IPv6Parser.parseIPv6String "::ffff:999.1.1.1".toList).hextets =
      [0, 0, 0, 0, 0, 0, 65535, 2457] := by
  exact ⟨by decide, by decide⟩

/-! Claim C7 — counterexample. -/

/-- C7 counterexample: `fe81::` satisfies the claimed top-10-bit condition
(`0xfe81 &&& 0xffc0 = 0xfe80`) and matches no earlier rule of the decision
list, yet the code classifies it `Reserved`, not `LinkLocal`, because the
source compares the whole first word against `0xfe80`. -/
theorem c7_counterexample :
    IPv6Parser.getAddressType [65153, 0, 0, 0, 0, 0, 0, 0] = AddressType.Reserved ∧
    (65153 : Nat) &&& 65472 = 65152 ∧
    IPv6Parser.getAddressType [65153, 0, 0, 0, 0, 0, 0, 0] ≠ AddressType.Unspecified ∧
    IPv6Parser.getAddressType [65153, 0, 0, 0, 0, 0, 0, 0] ≠ AddressType.Loopback := by
  exact ⟨by decide, by decide, by decide, by decide⟩

/-- Helper: a list of length 8 is literally an 8-element list. -/
theorem list_eq_of_length_eight {α : Type} (hx : List α) (h : hx.length = 8) :
    ∃ a b c d e f g h8, hx = [a, b, c, d, e, f, g, h8] := by
  rcases hx with _ | ⟨a, hx⟩; · simp at h
  rcases hx with _ | ⟨b, hx⟩; · simp at h
  rcases hx with _ | ⟨c, hx⟩; · simp at h
  rcases hx with _ | ⟨d, hx⟩; · simp at h
  rcases hx with _ | ⟨e, hx⟩; · simp at h
  rcases hx with _ | ⟨f, hx⟩; · simp at h
  rcases hx with _ | ⟨g, hx⟩; · simp at h
  rcases hx with _ | ⟨h8, hx⟩; · simp at h
  rcases hx with _ | ⟨x, hx⟩
  · exact ⟨a, b, c, d, e, f, g, h8, rfl⟩
  · simp at h

/-- C7 amended: for every 8-word list with words in range, the decision list
classifies LinkLocal exactly when the first word is literally `0xfe80` — the
whole top 16 bits, not just the 10-bit prefix the claim (and RFC 4291)
describe.  The earlier rules never fire on such a word, so no further
hypothesis is needed. -/
theorem c7_linklocal_iff_first_word (hx : List Int) (hlen : hx.length = 8)
    (hrange : ∀ x ∈ hx, 0 ≤ x ∧ x ≤ 65535) :
    (IPv6Parser.getAddressType hx = AddressType.LinkLocal ↔ hx.getD 0 0 = 65152) := by
  obtain ⟨w0, w1, w2, w3, w4, w5, w6, w7, rfl⟩ := list_eq_of_length_eight hx hlen
  constructor
  · intro hLL
    unfold IPv6Parser.getAddressType at hLL
    by_cases hc1 : ([w0, w1, w2, w3, w4, w5, w6, w7].all fun h => h == 0) = true
    · rw [if_pos hc1] at hLL; exact AddressType.noConfusion hLL
    rw [if_neg hc1] at hLL
    by_cases hc2 : ((List.take 7 [w0, w1, w2, w3, w4, w5, w6, w7]).all fun h => h == 0) = true ∧
        [w0, w1, w2, w3, w4, w5, w6, w7].getD 7 0 = 1
    · rw [if_pos hc2] at hLL; exact AddressType.noConfusion hLL
    rw [if_neg hc2] at hLL
    by_cases hc3 : [w0, w1, w2, w3, w4, w5, w6, w7].getD 0 0 = 65152
    · exact hc3
    rw [if_neg hc3] at hLL
    by_cases hc4 : jsAnd ([w0, w1, w2, w3, w4, w5, w6, w7].getD 0 0) 65024 = 64512
    · rw [if_pos hc4] at hLL; exact AddressType.noConfusion hLL
    rw [if_neg hc4] at hLL
    by_cases hc5 : jsAnd ([w0, w1, w2, w3, w4, w5, w6, w7].getD 0 0) 65280 = 65280
    · rw [if_pos hc5] at hLL; exact AddressType.noConfusion hLL
    rw [if_neg hc5] at hLL
    by_cases hc6 : ((List.take 5 [w0, w1, w2, w3, w4, w5, w6, w7]).all fun h => h == 0) = true ∧
        [w0, w1, w2, w3, w4, w5, w6, w7].getD 5 0 = 65535
    · rw [if_pos hc6] at hLL; exact AddressType.noConfusion hLL
    rw [if_neg hc6] at hLL
    by_cases hc7 : ((List.take 6 [w0, w1, w2, w3, w4, w5, w6, w7]).all fun h => h == 0) = true
    · rw [if_pos hc7] at hLL; exact AddressType.noConfusion hLL
    rw [if_neg hc7] at hLL
    by_cases hc8 : [w0, w1, w2, w3, w4, w5, w6, w7].getD 0 0 = 8193 ∧
        [w0, w1, w2, w3, w4, w5, w6, w7].getD 1 0 = 0
    · rw [if_pos hc8] at hLL; exact AddressType.noConfusion hLL
    rw [if_neg hc8] at hLL
    by_cases hc9 : [w0, w1, w2, w3, w4, w5, w6, w7].getD 0 0 = 8194
    · rw [if_pos hc9] at hLL; exact AddressType.noConfusion hLL
    rw [if_neg hc9] at hLL
    by_cases hc10 : [w0, w1, w2, w3, w4, w5, w6, w7].getD 0 0 = 8193 ∧
        jsAnd ([w0, w1, w2, w3, w4, w5, w6, w7].getD 1 0) 65528 = 3512
    · rw [if_pos hc10] at hLL; exact AddressType.noConfusion hLL
    rw [if_neg hc10] at hLL
    by_cases hc11 : jsAnd ([w0, w1, w2, w3, w4, w5, w6, w7].getD 0 0) 57344 = 8192
    · rw [if_pos hc11] at hLL; exact AddressType.noConfusion hLL
    rw [if_neg hc11] at hLL
    exact AddressType.noConfusion hLL
  · intro hw
    simp only [List.getD_cons_zero] at hw
    subst hw
    simp [IPv6Parser.getAddressType, List.getD]

/-- C7 witness: the amended equivalence evaluated at `fe80::`. -/
theorem c7_linklocal_iff_first_word_witness :
    IPv6Parser.getAddressType [65152, 0, 0, 0, 0, 0, 0, 0] = AddressType.LinkLocal ↔
      ([65152, 0, 0, 0, 0, 0, 0, 0] : List Int).getD 0 0 = 65152 :=
  c7_linklocal_iff_first_word [65152, 0, 0, 0, 0, 0, 0, 0] (by decide) (by decide)

/-! Claim C8 — counterexample. -/

/-- C8 counterexample: the claim includes a requested limit of 0 and demands
`subnets.length = min(0, totalPossibleSubnets) = 0`; but `count ? ... : ...`
treats the number 0 as falsy, so a limit of 0 generates every subnet: the
`2001:db8::/32` to `/34` plan with limit 0 has 4 subnets, not 0. -/
theorem c8_counterexample :
    (IPv6Subnetting.calculateSubnets "2001:db8::/32".toList 34 (some 0)).map
      (fun pl => pl.subnets.length) = Except.ok 4 ∧
    Nat.min 0 4 = 0 := by
  exact ⟨rfl, by decide⟩

/-- C8 amended: for a valid base network and a target prefix in
`(basePrefixLength, 128]`, `calculateSubnets` succeeds with
`totalSubnets = 2^(t-p)`; the generated count is `min(limit, 2^(t-p))` for a
nonzero numeric limit, and the full `2^(t-p)` when the limit is absent or 0
(both falsy in `count ? ... : ...`).  Subnets are ordered by increasing
0-based index: the i-th record's network is the rendering of the i-th subnet
address. -/
theorem c8_plan_size (s : Str) (t : Nat) (c : Option Nat)
    (hvalid : (IPv6Parser.parse s).isValid = true)
    (hlt : (IPv6Parser.parse s).prefixLength < t) (hle : t ≤ 128) :
    ∃ pl, IPv6Subnetting.calculateSubnets s t c = Except.ok pl ∧
      pl.totalSubnets = 2 ^ (t - (IPv6Parser.parse s).prefixLength) ∧
      pl.subnets.length = (match c with
        | none => 2 ^ (t - (IPv6Parser.parse s).prefixLength)
        | some k =>
          if k = 0 then 2 ^ (t - (IPv6Parser.parse s).prefixLength)
          else min k (2 ^ (t - (IPv6Parser.parse s).prefixLength))) ∧
      ∀ i (hi : i < pl.subnets.length),
        (pl.subnets.get ⟨i, hi⟩).network =
          IPv6Subnetting.hextetsToAddress
            (IPv6Subnetting.calculateSubnetAddress
              (IPv6Subnetting.parseHextets (IPv6Parser.parse s).expanded)
              (IPv6Parser.parse s).prefixLength t i) ++ '/' :: natToDecStr t := by
  have hcond1 : (!(IPv6Parser.parse s).isValid) = false := by rw [hvalid]; rfl
  have hcond2 : ¬ (t ≤ (IPv6Parser.parse s).prefixLength) := by omega
  have hcond3 : ¬ (128 < t) := by omega
  unfold IPv6Subnetting.calculateSubnets
  dsimp only
  rw [hcond1]
  simp only [Bool.false_eq_true, if_false, if_neg hcond2, if_neg hcond3]
  refine ⟨_, rfl, rfl, ?_, ?_⟩
  · simp only [List.length_map, List.length_range]
    cases c with
    | none => rfl
    | some k => rfl
  · intro i hi
    simp only [List.get_eq_getElem, List.getElem_map,
      List.getElem_range]

/-- C8 witness: the amended size law evaluated on `2001:db8::/32` split to
`/34` with limit 3. -/
theorem c8_plan_size_witness :
    ∃ pl, IPv6Subnetting.calculateSubnets "2001:db8::/32".toList 34 (some 3) = Except.ok pl ∧
      pl.totalSubnets = 2 ^ (34 - (IPv6Parser.parse "2001:db8::/32".toList).prefixLength) ∧
      pl.subnets.length = (if (3 : Nat) = 0 then
          2 ^ (34 - (IPv6Parser.parse "2001:db8::/32".toList).prefixLength)
        else min 3 (2 ^ (34 - (IPv6Parser.parse "2001:db8::/32".toList).prefixLength))) := by
  obtain ⟨pl, h1, h2, h3, _⟩ :=
    c8_plan_size "2001:db8::/32".toList 34 (some 3) (by decide) (by decide) (by decide)
  exact ⟨pl, h1, h2, h3⟩

/-! Claim C9 — counterexample. -/

/-- C9 counterexample: for base `::/0`, target `/48` and index 8 the claim
prescribes the network value `8 * 2^80` (the binary representation of 8
written into bits `[0, 48)`); but the source's `>>` masks its shift count mod
32 (`8 >> 32` is `8`), so word 0 wrongly receives 8 as well: the emitted
network is `0008:0000:0008::/48` and the value `8 * 2^112 + 8 * 2^80`. -/
theorem c9_counterexample :
    (IPv6Subnetting.calculateSubnets "::/0".toList 48 (some 9)).map
      (fun pl => (pl.subnets.getD 8 default).network) =
      Except.ok "0008:0000:0008:0000:0000:0000:0000:0000/48".toList ∧
    wordsVal (IPv6Subnetting.calculateSubnetAddress (List.replicate 8 0) 0 48 8) ≠
      8 * 2 ^ 80 := by
  exact ⟨rfl, by decide⟩

/-! Claim C10 — counterexample and amended statement. -/

/-- C10 counterexample: at target prefix 64 the Subnet Planner attaches the
host-count string `2^64` to each generated subnet, while the Address Codec
renders `2^64 (18446744073709551616)` for the same prefix length, so the two
strings are not equal as the claim states. -/
theorem c10_counterexample :
    (IPv6Subnetting.calculateSubnets "2001:db8::/63".toList 64 none).map
      (fun pl => pl.subnets.map SubnetInfo.totalHosts) =
      Except.ok ["2^64".toList, "2^64".toList] ∧
    IPv6Parser.calculateTotalHosts 64 ≠ "2^64".toList := by
  exact ⟨rfl, by decide⟩

/-- C10 amended: for every prefix length `t ≤ 128` the planner's host-count
string equals the codec's exactly when `128 - t < 64` (both are the grouped
exact decimal of `2^(128-t)`); from 64 host bits up the planner emits only
the `2^k` notation while the codec appends the full decimal expansion, and
the two strings differ. -/
theorem c10_host_count_agreement (t : Nat) (ht : t ≤ 128) :
    (64 < t → IPv6Subnetting.calculateHostCount t = IPv6Parser.calculateTotalHosts t) ∧
    (t ≤ 64 → IPv6Subnetting.calculateHostCount t ≠ IPv6Parser.calculateTotalHosts t) := by
  constructor
  · intro h
    have hlt : ¬ (64 ≤ 128 - t) := by omega
    simp only [IPv6Subnetting.calculateHostCount, IPv6Parser.calculateTotalHosts, if_neg hlt]
  · intro h
    have hge : 64 ≤ 128 - t := by omega
    simp only [IPv6Subnetting.calculateHostCount, IPv6Parser.calculateTotalHosts, if_pos hge]
    intro heq
    have hl := congrArg List.length heq
    simp only [List.length_append, List.length_cons, List.length_nil] at hl
    have h1 : ("2^".toList).length = 2 := rfl
    have h2 : (" (".toList).length = 2 := rfl
    omega

/-- C10 witness: the amended agreement evaluated at prefix length 96. -/
theorem c10_host_count_agreement_witness :
    IPv6Subnetting.calculateHostCount 96 = IPv6Parser.calculateTotalHosts 96 :=
  (c10_host_count_agreement 96 (by decide)).1 (by decide)


/-! Claim C5 — group acceptance is governed by `parseInt(group, 16)`. -/

/-- A successful run of the validation loop certifies every non-empty group:
each parses to a value at most `0xffff`. -/
theorem parseGroups_sound : ∀ (gs : List Str) (vs : List Int),
    IPv6Parser.parseGroups gs = some vs →
    ∀ g ∈ gs, g ≠ [] → ∃ v, jsParseIntHex g = some v ∧ v ≤ 65535 := by
  intro gs
  induction gs with
  | nil => intro vs _ g hg; simp at hg
  | cons g0 rest ih =>
    intro vs hvs g hg hgne
    unfold IPv6Parser.parseGroups at hvs
    rcases List.mem_cons.mp hg with rfl | hmem
    · have hemp : g.isEmpty = false := by
        cases g with
        | nil => exact absurd rfl hgne
        | cons a t => rfl
      rw [hemp] at hvs
      simp only [Bool.false_eq_true, if_false] at hvs
      cases hpi : jsParseIntHex g with
      | none => rw [hpi] at hvs; exact absurd hvs (by simp)
      | some v =>
        rw [hpi] at hvs
        dsimp only at hvs
        by_cases h65 : 65535 < v
        · rw [if_pos h65] at hvs; exact absurd hvs (by simp)
        · exact ⟨v, rfl, by omega⟩
    · by_cases hemp : g0.isEmpty
      · rw [if_pos hemp] at hvs
        exact ih vs hvs g hmem hgne
      · rw [if_neg hemp] at hvs
        cases hpi : jsParseIntHex g0 with
        | none => rw [hpi] at hvs; exact absurd hvs (by simp)
        | some v =>
          rw [hpi] at hvs
          dsimp only at hvs
          by_cases h65 : 65535 < v
          · rw [if_pos h65] at hvs; exact absurd hvs (by simp)
          · rw [if_neg h65] at hvs
            cases hrest : IPv6Parser.parseGroups rest with
            | none => rw [hrest] at hvs; exact absurd hvs (by simp)
            | some vs2 => exact ih vs2 hrest g hmem hgne

/-- Conversely, when every group of a list of non-empty groups parses to a
value at most `0xffff`, the loop succeeds and returns one word per group. -/
theorem parseGroups_complete : ∀ (gs : List Str),
    (∀ g ∈ gs, g ≠ []) →
    (∀ g ∈ gs, ∃ v, jsParseIntHex g = some v ∧ v ≤ 65535) →
    ∃ vs, IPv6Parser.parseGroups gs = some vs ∧ vs.length = gs.length := by
  intro gs
  induction gs with
  | nil => intro _ _; exact ⟨[], rfl, rfl⟩
  | cons g0 rest ih =>
    intro hne hacc
    obtain ⟨v, hv, h65⟩ := hacc g0 (List.mem_cons_self _ _)
    obtain ⟨vs, hvs, hlen⟩ := ih (fun g hg => hne g (List.mem_cons_of_mem _ hg))
      (fun g hg => hacc g (List.mem_cons_of_mem _ hg))
    have hemp : g0.isEmpty = false := by
      cases hg0 : g0 with
      | nil => exact absurd hg0 (hne g0 (List.mem_cons_self _ _))
      | cons a t => rfl
    refine ⟨v :: vs, ?_, by simp [hlen]⟩
    unfold IPv6Parser.parseGroups
    rw [hemp]
    simp only [Bool.false_eq_true, if_false]
    rw [hv]
    dsimp only
    rw [if_neg (by omega), hvs]

/-- C5 (corrected): for a colon-join of 8 non-empty groups free of colons,
slashes and whitespace, the parse is valid exactly when JavaScript
`parseInt(group, 16)` yields a non-`NaN` value at most `0xffff` for every
group — a strictly broader acceptance than the claimed `1-4 hex digits`,
since `parseInt` also accepts longer digit strings and trailing garbage. -/
theorem c5_group_acceptance (gs : List Str) (hlen : gs.length = 8)
    (hg : ∀ g ∈ gs, g ≠ [] ∧ ∀ c ∈ g, c ≠ ':' ∧ c ≠ '/' ∧ jsIsWhite c = false) :
    (IPv6Parser.parseIPv6String (joinSep ':' gs)).isValid = true ↔
      ∀ g ∈ gs, ∃ v, jsParseIntHex g = some v ∧ v ≤ 65535 := by
  rw [parseIPv6String_plain gs hlen hg]
  constructor
  · intro hvalid
    cases hpg : IPv6Parser.parseGroups gs with
    | none =>
      rw [hpg] at hvalid
      exact absurd hvalid (by simp [IPv6Parser.mkInvalid])
    | some vs =>
      exact fun g hgm => parseGroups_sound gs vs hpg g hgm (hg g hgm).1
  · intro hacc
    obtain ⟨vs, hvs, hlen2⟩ := parseGroups_complete gs (fun g hgm => (hg g hgm).1) hacc
    rw [hvs]
    dsimp only
    rw [if_neg (by rw [hlen2, hlen]; omega)]

/-- Concrete instance of the amended C5: `1:2:3:4:5:6:7:00008` has a final
group of five digits, yet parses as valid. -/
theorem c5_group_acceptance_witness :
    (IPv6Parser.parseIPv6String
      (joinSep ':' [['1'], ['2'], ['3'], ['4'], ['5'], ['6'], ['7'],
        ['0', '0', '0', '0', '8']])).isValid = true := by
  refine (c5_group_acceptance _ (by decide) (by decide)).mpr ?_
  intro g hgm
  fin_cases hgm <;> exact ⟨_, rfl, by decide⟩


/-! Claim C6 — the IPv4-mapped shorthand and its octet-range handling. -/

/-- `ToUint32` is the identity on naturals below `2^32`. -/
theorem toUint32_natCast {n : Nat} (h : n < 4294967296) : toUint32 (n : Int) = n := by
  unfold toUint32
  show ((n : Int) % 4294967296).toNat = n
  rw [Int.emod_eq_of_lt (by omega) (by omega)]
  exact Int.toNat_ofNat n

/-- Signed reinterpretation is the identity below `2^31`. -/
theorem int32OfUint_small {n : Nat} (h : n < 2147483648) : int32OfUint n = (n : Int) := by
  unfold int32OfUint
  rw [if_neg (by omega)]

/-- JavaScript `<<` on small non-negative operands is exact multiplication. -/
theorem jsShl_small (a k : Nat) (hk : k < 32) (h : a * 2 ^ k < 2147483648) :
    jsShl (a : Int) k = ((a * 2 ^ k : Nat) : Int) := by
  have ha : a < 4294967296 := by
    have h1 : a ≤ a * 2 ^ k := Nat.le_mul_of_pos_right a (Nat.pos_pow_of_pos k (by omega))
    omega
  unfold jsShl
  rw [Nat.mod_eq_of_lt hk, toUint32_natCast ha, Nat.shiftLeft_eq,
    Nat.mod_eq_of_lt (by omega), int32OfUint_small h]

/-- JavaScript `|` on small non-negative operands is the natural `lor`. -/
theorem jsOr_small (x y : Nat) (hx : x < 2147483648) (hy : y < 2147483648) :
    jsOr (x : Int) (y : Int) = ((x ||| y : Nat) : Int) := by
  have hor : x ||| y < 2147483648 := by
    have : (2147483648 : Nat) = 2 ^ 31 := by norm_num
    rw [this] at hx hy ⊢
    exact Nat.or_lt_two_pow hx hy
  unfold jsOr
  rw [toUint32_natCast (by omega), toUint32_natCast (by omega), int32OfUint_small hor]

/-- The octet combination of the mapped branch, `(a << 8) | b`, is exactly
`256 * a + b` for in-range octets. -/
theorem jsOr_shl8 (a b : Nat) (ha : a ≤ 255) (hb : b ≤ 255) :
    jsOr (jsShl (a : Int) 8) (b : Int) = ((256 * a + b : Nat) : Int) := by
  rw [jsShl_small a 8 (by omega) (by omega), jsOr_small (a * 2 ^ 8) b (by omega) (by omega)]
  congr 1
  have h28 : a * 2 ^ 8 = 2 ^ 8 * a := by ring
  rw [h28, ← Nat.mul_add_lt_is_or (by omega : b < 2 ^ 8) a]

/-- The IPv4-mapped regex matches the rendered shorthand and captures the
four decimal octet values. -/
theorem ipv4MappedMatch_rendered (a b c d : Nat) :
    IPv6Parser.ipv4MappedMatch
      (':' :: ':' :: 'f' :: 'f' :: 'f' :: 'f' :: ':' ::
        joinSep '.' [natToDecStr a, natToDecStr b, natToDecStr c, natToDecStr d]) =
      some [a, b, c, d] := by
  have hdigits : ∀ g ∈ [natToDecStr a, natToDecStr b, natToDecStr c, natToDecStr d],
      ∀ ch ∈ g, isDigitChar ch = true := by
    intro g hgm ch hch
    simp only [List.mem_cons, List.not_mem_nil, or_false] at hgm
    rcases hgm with rfl | rfl | rfl | rfl
    · exact natToDecStr_chars a ch hch
    · exact natToDecStr_chars b ch hch
    · exact natToDecStr_chars c ch hch
    · exact natToDecStr_chars d ch hch
  have hsplit : splitOnChar '.'
      (joinSep '.' [natToDecStr a, natToDecStr b, natToDecStr c, natToDecStr d]) =
      [natToDecStr a, natToDecStr b, natToDecStr c, natToDecStr d] :=
    splitOnChar_joinSep '.' _ (by simp)
      (fun g hgm ch hch => (isDigitChar_ne_special (hdigits g hgm ch hch)).2.2.1)
  have hcond : (decide (([natToDecStr a, natToDecStr b, natToDecStr c,
        natToDecStr d] : List Str).length = 4) &&
      ([natToDecStr a, natToDecStr b, natToDecStr c, natToDecStr d] : List Str).all
        (fun p => !List.isEmpty p && List.all p isDigitChar)) = true := by
    simp only [List.length_cons, List.length_nil, Bool.and_eq_true, decide_eq_true_eq,
      List.all_eq_true]
    refine ⟨trivial, ?_⟩
    intro g hgm
    have hne : g ≠ [] := by
      simp only [List.mem_cons, List.not_mem_nil, or_false] at hgm
      rcases hgm with rfl | rfl | rfl | rfl
      · exact natToDecStr_ne_nil a
      · exact natToDecStr_ne_nil b
      · exact natToDecStr_ne_nil c
      · exact natToDecStr_ne_nil d
    refine ⟨?_, fun ch hch => hdigits g hgm ch hch⟩
    cases hg : g with
    | nil => exact absurd hg hne
    | cons x t => simp
  have key : ∀ s : Str,
      s = ':' :: ':' :: 'f' :: 'f' :: 'f' :: 'f' :: ':' ::
        joinSep '.' [natToDecStr a, natToDecStr b, natToDecStr c, natToDecStr d] →
      IPv6Parser.ipv4MappedMatch s = some [a, b, c, d] := by
    intro s hs
    unfold IPv6Parser.ipv4MappedMatch
    split
    · rename_i a2 b2 c2 d2 rest2
      injection hs with h1 hs
      injection hs with h2 hs
      injection hs with h3 hs
      injection hs with h4 hs
      injection hs with h5 hs
      injection hs with h6 hs
      injection hs with h7 hs
      subst h3 h4 h5 h6 hs
      rw [if_pos (by decide)]
      dsimp only
      rw [hsplit]
      rw [if_pos hcond]
      simp only [List.map_cons, List.map_nil, decVal_natToDecStr]
    · rename_i hno
      exact absurd hs (hno 'f' 'f' 'f' 'f' _)
  apply key
  rfl

/-- C6 (corrected): an input of the mapped shorthand form parses as valid
with words `[0,0,0,0,0,ffff,256a+b,256c+d]` whenever every octet is at most
255; when any octet is out of range there is no dedicated failure — the
mapped rule is skipped and the input falls through to the generic
colon-hex parser. -/
theorem c6_mapped_octets (a b c d : Nat) :
    ((a ≤ 255 ∧ b ≤ 255 ∧ c ≤ 255 ∧ d ≤ 255) →
      IPv6Parser.parseIPv6String
        (':' :: ':' :: 'f' :: 'f' :: 'f' :: 'f' :: ':' ::
          joinSep '.' [natToDecStr a, natToDecStr b, natToDecStr c, natToDecStr d]) =
        { hextets := [0, 0, 0, 0, 0, 65535, ((256 * a + b : Nat) : Int),
            ((256 * c + d : Nat) : Int)],
          prefixLength := 128, isValid := true, error := none }) ∧
    (¬(a ≤ 255 ∧ b ≤ 255 ∧ c ≤ 255 ∧ d ≤ 255) →
      IPv6Parser.parseIPv6String
        (':' :: ':' :: 'f' :: 'f' :: 'f' :: 'f' :: ':' ::
          joinSep '.' [natToDecStr a, natToDecStr b, natToDecStr c, natToDecStr d]) =
        IPv6Parser.parseColonHex
          (':' :: ':' :: 'f' :: 'f' :: 'f' :: 'f' :: ':' ::
            joinSep '.' [natToDecStr a, natToDecStr b, natToDecStr c, natToDecStr d]) 128) := by
  have hdigits : ∀ g ∈ [natToDecStr a, natToDecStr b, natToDecStr c, natToDecStr d],
      ∀ ch ∈ g, isDigitChar ch = true := by
    intro g hgm ch hch
    simp only [List.mem_cons, List.not_mem_nil, or_false] at hgm
    rcases hgm with rfl | rfl | rfl | rfl
    · exact natToDecStr_chars a ch hch
    · exact natToDecStr_chars b ch hch
    · exact natToDecStr_chars c ch hch
    · exact natToDecStr_chars d ch hch
  have hslash : '/' ∉ (':' :: ':' :: 'f' :: 'f' :: 'f' :: 'f' :: ':' ::
      joinSep '.' [natToDecStr a, natToDecStr b, natToDecStr c, natToDecStr d]) := by
    intro hmem
    simp only [List.mem_cons] at hmem
    rcases hmem with h | h | h | h | h | h | h | h
    all_goals first
      | exact absurd h (by decide)
      | skip
    rcases mem_joinSep h with h2 | ⟨g, hgm, hc⟩
    · exact absurd h2 (by decide)
    · exact (isDigitChar_ne_special (hdigits g hgm '/' hc)).2.2.2 rfl
  have hnec : (':' :: ':' :: 'f' :: 'f' :: 'f' :: 'f' :: ':' ::
      joinSep '.' [natToDecStr a, natToDecStr b, natToDecStr c, natToDecStr d]) ≠
      "::".toList := by
    intro h
    have := congrArg List.length h
    simp at this
  constructor
  · intro hr
    unfold IPv6Parser.parseIPv6String
    rw [prefixSuffixMatch_none _ hslash]
    unfold IPv6Parser.parseIPv6Body
    rw [if_neg hnec, ipv4MappedMatch_rendered]
    dsimp only
    rw [if_pos (by
      simp only [List.all_eq_true, List.mem_cons, decide_eq_true_eq]
      rintro x (rfl | rfl | rfl | rfl | h)
      · exact hr.1
      · exact hr.2.1
      · exact hr.2.2.1
      · exact hr.2.2.2
      · simp at h)]
    simp only [List.getD_cons_zero, List.getD_cons_succ]
    rw [jsOr_shl8 a b hr.1 hr.2.1, jsOr_shl8 c d hr.2.2.1 hr.2.2.2]
  · intro hr
    unfold IPv6Parser.parseIPv6String
    rw [prefixSuffixMatch_none _ hslash]
    unfold IPv6Parser.parseIPv6Body
    rw [if_neg hnec, ipv4MappedMatch_rendered]
    dsimp only
    rw [if_neg (by
      simp only [List.all_eq_true, List.mem_cons, decide_eq_true_eq]
      intro hall
      exact hr ⟨hall a (by simp), hall b (by simp), hall c (by simp), hall d (by simp)⟩)]

/-- Concrete instances of the amended C6: `::ffff:192.168.0.1` parses to the
mapped words, while `::ffff:999.1.1.1` falls through to the generic parser
with no dedicated octet-range error. -/
theorem c6_mapped_octets_witness :
    (IPv6Parser.parseIPv6String
        (':' :: ':' :: 'f' :: 'f' :: 'f' :: 'f' :: ':' ::
          joinSep '.' [natToDecStr 192, natToDecStr 168, natToDecStr 0, natToDecStr 1]) =
      { hextets := [0, 0, 0, 0, 0, 65535, ((256 * 192 + 168 : Nat) : Int),
          ((256 * 0 + 1 : Nat) : Int)],
        prefixLength := 128, isValid := true, error := none }) ∧
    (IPv6Parser.parseIPv6String
        (':' :: ':' :: 'f' :: 'f' :: 'f' :: 'f' :: ':' ::
          joinSep '.' [natToDecStr 999, natToDecStr 1, natToDecStr 1, natToDecStr 1]) =
      IPv6Parser.parseColonHex
        (':' :: ':' :: 'f' :: 'f' :: 'f' :: 'f' :: ':' ::
          joinSep '.' [natToDecStr 999, natToDecStr 1, natToDecStr 1, natToDecStr 1]) 128) :=
  ⟨(c6_mapped_octets 192 168 0 1).1 (by omega),
   (c6_mapped_octets 999 1 1 1).2 (by omega)⟩


/-! Claim C4 — the compressed rendering against the spec wording. -/

/-- The run scanner only inspects the element test, so it transports along a
map with pointwise-equal tests. -/
theorem zeroRunsGo_congr {α β : Type} (p : β → Bool) (q : α → Bool) (f : α → β) :
    ∀ (xs : List α) (i : Nat) (cur : Option (Nat × Nat)),
    (∀ x ∈ xs, p (f x) = q x) →
    IPv6Parser.zeroRunsGo p (xs.map f) i cur = IPv6Parser.zeroRunsGo q xs i cur := by
  intro xs
  induction xs with
  | nil =>
    intro i cur _
    rcases cur with - | ⟨s0, l0⟩ <;> rfl
  | cons x rest ih =>
    intro i cur hpw
    have hx := hpw x (List.mem_cons_self _ _)
    have ihx := fun i cur => ih i cur (fun y hy => hpw y (List.mem_cons_of_mem _ hy))
    show IPv6Parser.zeroRunsGo p (f x :: rest.map f) i cur = _
    rcases cur with - | ⟨s0, l0⟩ <;>
      cases hqx : q x <;>
      · rw [hqx] at hx
        simp only [IPv6Parser.zeroRunsGo, hx, hqx, Bool.false_eq_true, if_false, if_true]
        first
          | exact ihx _ _
          | exact congrArg _ (ihx _ _)

/-- `zeroRunsBy` transports along a map with pointwise-equal tests. -/
theorem zeroRunsBy_congr {α β : Type} (p : β → Bool) (q : α → Bool) (f : α → β)
    (xs : List α) (h : ∀ x ∈ xs, p (f x) = q x) :
    IPv6Parser.zeroRunsBy p (xs.map f) = IPv6Parser.zeroRunsBy q xs :=
  zeroRunsGo_congr p q f xs 0 none h

/-- A padded group renders as `0000` exactly for the zero word. -/
theorem pad4_beq_zero (x : Int) (hx : 0 ≤ x ∧ x ≤ 65535) :
    (padStart 4 '0' (intToHexStr x) == ['0', '0', '0', '0']) = (x == 0) := by
  by_cases h0 : x = 0
  · subst h0; rfl
  · have hx0 : (x == 0) = false := by simp [h0]
    rw [hx0, beq_eq_false_iff_ne]
    intro heq
    have hparse : jsParseIntHex (padStart 4 '0' (intToHexStr x)) = some (x.toNat : Int) := by
      rw [intToHexStr_nonneg hx.1, jsParseIntHex_padStart]
      rfl
    rw [heq] at hparse
    have h2 : jsParseIntHex ['0', '0', '0', '0'] = some 0 := by decide
    rw [h2] at hparse
    have h3 : (0 : Int) = (x.toNat : Int) := Option.some.inj hparse
    omega

/-- `renderGroup` strips the zero padding of an in-range word back off. -/
theorem renderGroup_padded (x : Int) (hx : 0 ≤ x ∧ x ≤ 65535) :
    IPv6Parser.renderGroup (padStart 4 '0' (intToHexStr x)) = intToHexStr x := by
  unfold IPv6Parser.renderGroup
  have hparse : jsParseIntHex (padStart 4 '0' (intToHexStr x)) = some (x.toNat : Int) := by
    rw [intToHexStr_nonneg hx.1, jsParseIntHex_padStart]
    rfl
  rw [hparse]
  dsimp only
  rw [intToHexStr_nonneg (Int.natCast_nonneg _), Int.toNat_ofNat,
    intToHexStr_nonneg hx.1]

/-- The fold underlying `selectRun` only ever returns the accumulator or a
list element. -/
theorem selectRun_fold_mem : ∀ (rs : List (Nat × Nat)) (acc : Option (Nat × Nat))
    (r : Nat × Nat),
    rs.foldl (fun acc r =>
      match acc with
      | none => some r
      | some b => if b.2 < r.2 then some r else acc) acc = some r →
    acc = some r ∨ r ∈ rs := by
  intro rs
  induction rs with
  | nil => intro acc r h; exact Or.inl h
  | cons x rest ih =>
    intro acc r h
    rw [List.foldl_cons] at h
    rcases ih _ r h with h2 | h2
    · cases acc with
      | none =>
        dsimp only at h2
        exact Or.inr (by rw [← Option.some.inj h2]; exact List.mem_cons_self _ _)
      | some b =>
        dsimp only at h2
        by_cases hlt : b.2 < x.2
        · rw [if_pos hlt] at h2
          exact Or.inr (by rw [← Option.some.inj h2]; exact List.mem_cons_self _ _)
        · rw [if_neg hlt] at h2
          exact Or.inl h2
    · exact Or.inr (List.mem_cons_of_mem _ h2)

/-- A selected run is one of the scanned runs. -/
theorem selectRun_mem {rs : List (Nat × Nat)} {r : Nat × Nat}
    (h : selectRun rs = some r) : r ∈ rs := by
  unfold selectRun at h
  rcases selectRun_fold_mem rs none r h with h2 | h2
  · exact absurd h2 (by simp)
  · exact h2


/-- Joint invariant of the source's `reduce` (sentinel `(-1, 0)`, strictly
greater length wins) and the spec's selection (longest, leftmost) over the
runs of length at least 2: the two folds agree whenever the source's best
length reaches 2, and the spec selects nothing otherwise. -/
theorem pick_select_fold : ∀ (runs : List (Nat × Nat)) (b : Int × Nat)
    (a : Option (Nat × Nat)),
    (2 ≤ b.2 → 0 ≤ b.1 ∧ a = some (b.1.toNat, b.2)) →
    (b.2 < 2 → a = none) →
    (2 ≤ (runs.foldl (fun longest cur =>
        if longest.2 < cur.2 then ((cur.1 : Int), cur.2) else longest) b).2 →
      0 ≤ (runs.foldl (fun longest cur =>
        if longest.2 < cur.2 then ((cur.1 : Int), cur.2) else longest) b).1 ∧
      (runs.filter (fun r => 2 ≤ r.2)).foldl (fun acc r =>
          match acc with
          | none => some r
          | some bb => if bb.2 < r.2 then some r else acc) a =
        some ((runs.foldl (fun longest cur =>
            if longest.2 < cur.2 then ((cur.1 : Int), cur.2) else longest) b).1.toNat,
          (runs.foldl (fun longest cur =>
            if longest.2 < cur.2 then ((cur.1 : Int), cur.2) else longest) b).2)) ∧
    ((runs.foldl (fun longest cur =>
        if longest.2 < cur.2 then ((cur.1 : Int), cur.2) else longest) b).2 < 2 →
      (runs.filter (fun r => 2 ≤ r.2)).foldl (fun acc r =>
          match acc with
          | none => some r
          | some bb => if bb.2 < r.2 then some r else acc) a = none) := by
  intro runs
  induction runs with
  | nil =>
    intro b a h1 h2
    simp only [List.foldl_nil, List.filter_nil]
    exact ⟨h1, h2⟩
  | cons r rest ih =>
    intro b a h1 h2
    obtain ⟨r1, r2⟩ := r
    rw [List.foldl_cons]
    by_cases h2r : 2 ≤ r2
    · rw [List.filter_cons_of_pos (by simpa using h2r), List.foldl_cons]
      by_cases hlt : b.2 < r2
      · rcases Nat.lt_or_ge b.2 2 with hb2 | hb2
        · have ha := h2 hb2
          subst ha
          dsimp only
          rw [if_pos hlt]
          exact ih (((r1 : Nat) : Int), r2) (some (r1, r2))
            (fun _ => ⟨Int.natCast_nonneg r1, by rw [Int.toNat_ofNat]⟩)
            (fun hcon => absurd h2r (by omega))
        · have ha := (h1 hb2).2
          subst ha
          dsimp only
          rw [if_pos hlt, if_pos hlt]
          exact ih (((r1 : Nat) : Int), r2) (some (r1, r2))
            (fun _ => ⟨Int.natCast_nonneg r1, by rw [Int.toNat_ofNat]⟩)
            (fun hcon => absurd h2r (by omega))
      · have hb2 : 2 ≤ b.2 := by omega
        have ha := (h1 hb2).2
        have hb1 := (h1 hb2).1
        subst ha
        dsimp only
        rw [if_neg hlt, if_neg hlt]
        exact ih b (some (b.1.toNat, b.2))
          (fun _ => ⟨hb1, rfl⟩)
          (fun hcon => absurd hb2 (by omega))
    · rw [List.filter_cons_of_neg (by simpa using h2r)]
      by_cases hlt : b.2 < r2
      · dsimp only
        rw [if_pos hlt]
        exact ih (((r1 : Nat) : Int), r2) a
          (fun hcon => absurd hcon (by omega))
          (fun _ => h2 (by omega))
      · dsimp only
        rw [if_neg hlt]
        exact ih b a h1 h2

/-- The source's run selection against the spec's, at their real starting
accumulators. -/
theorem pickLongest_selectRun (runs : List (Nat × Nat)) :
    (2 ≤ (IPv6Parser.pickLongest runs).2 →
      0 ≤ (IPv6Parser.pickLongest runs).1 ∧
      selectRun (runs.filter (fun r => 2 ≤ r.2)) =
        some ((IPv6Parser.pickLongest runs).1.toNat, (IPv6Parser.pickLongest runs).2)) ∧
    ((IPv6Parser.pickLongest runs).2 < 2 →
      selectRun (runs.filter (fun r => 2 ≤ r.2)) = none) := by
  unfold IPv6Parser.pickLongest selectRun
  exact pick_select_fold runs (-1, 0) none
    (fun hcon => absurd hcon (by norm_num))
    (fun _ => rfl)

/-- `toCompressed` computes exactly the spec rendering of section 4.2 on a
valid Word128: longest run of zero words, leftmost tie-break, runs of length
1 never compressed, remaining words in lowercase hex without leading
zeros. -/
theorem toCompressed_eq_spec (w : List Int) (hlen : w.length = 8)
    (hr : ∀ x ∈ w, 0 ≤ x ∧ x ≤ 65535) :
    IPv6Parser.toCompressed w = compressedSpec w := by
  have hwne : w ≠ [] := by intro h; rw [h] at hlen; simp at hlen
  have hparts : splitOnChar ':' (IPv6Parser.toExpanded w) =
      w.map (fun h => padStart 4 '0' (intToHexStr h)) := by
    unfold IPv6Parser.toExpanded
    apply splitOnChar_joinSep
    · simpa using hwne
    · intro g hgm c hc
      obtain ⟨x, hx, rfl⟩ := List.mem_map.mp hgm
      exact (isHexDigit_ne_special ((padded_group_wf x (hr x hx)).2 c hc)).1
  have hruns : IPv6Parser.zeroRunsBy (fun p => p == ['0', '0', '0', '0'])
      (w.map (fun h => padStart 4 '0' (intToHexStr h))) =
      IPv6Parser.zeroRunsBy (fun x => x == 0) w :=
    zeroRunsBy_congr _ _ _ w (fun x hx => pad4_beq_zero x (hr x hx))
  have hbefore : ∀ n : Nat,
      ((w.map (fun h => padStart 4 '0' (intToHexStr h))).take n).map IPv6Parser.renderGroup =
      (w.take n).map (fun h => intToHexStr h) := by
    intro n
    rw [← List.map_take, List.map_map]
    exact List.map_congr_left
      (fun x hx => renderGroup_padded x (hr x (List.mem_of_mem_take hx)))
  have hafter : ∀ n : Nat,
      ((w.map (fun h => padStart 4 '0' (intToHexStr h))).drop n).map IPv6Parser.renderGroup =
      (w.drop n).map (fun h => intToHexStr h) := by
    intro n
    rw [← List.map_drop, List.map_map]
    exact List.map_congr_left
      (fun x hx => renderGroup_padded x (hr x (List.mem_of_mem_drop hx)))
  have hsel := pickLongest_selectRun (IPv6Parser.zeroRunsBy (fun x => x == 0) w)
  unfold IPv6Parser.toCompressed
  dsimp only
  rw [hparts, hruns]
  unfold compressedSpec
  by_cases h2 : 1 < (IPv6Parser.pickLongest (IPv6Parser.zeroRunsBy (fun x => x == 0) w)).2
  · obtain ⟨hge, hselsome⟩ := hsel.1 (by omega)
    rw [if_pos h2, hselsome]
    dsimp only
    rw [hbefore, hafter]
    by_cases hs0 : (IPv6Parser.pickLongest (IPv6Parser.zeroRunsBy (fun x => x == 0) w)).1 = 0
    · rw [if_pos hs0, hs0]
      rfl
    · rw [if_neg hs0]
      by_cases hs8 : (IPv6Parser.pickLongest
            (IPv6Parser.zeroRunsBy (fun x => x == 0) w)).1.toNat +
          (IPv6Parser.pickLongest (IPv6Parser.zeroRunsBy (fun x => x == 0) w)).2 = 8
      · rw [if_pos hs8, hs8]
        have hdrop : w.drop 8 = [] := List.drop_eq_nil_of_le (by omega)
        rw [hdrop]
        show _ = _ ++ [':', ':'] ++ joinSep ':' []
        rw [show joinSep ':' ([] : List Str) = [] from rfl, List.append_nil]
      · rw [if_neg hs8]
  · rw [if_neg h2, hsel.2 (by omega)]
    dsimp only
    rw [List.map_map]
    exact congrArg _ (List.map_congr_left fun x hx => renderGroup_padded x (hr x hx))

/-- C4 (confirmed): the compressed rendering of every valid Word128 replaces
exactly the leftmost-longest run of at least two zero words with `::`,
renders the remaining words as lowercase hex without leading zeros, never
compresses an isolated zero word, and renders the all-zero address as `::` —
stated as equality with the spec-worded rendering `compressedSpec`. -/
theorem c4_compressed_matches_spec (w : List Int) (hlen : w.length = 8)
    (hr : ∀ x ∈ w, 0 ≤ x ∧ x ≤ 65535) :
    IPv6Parser.toCompressed w = compressedSpec w :=
  toCompressed_eq_spec w hlen hr

/-- Concrete instance of C4 at `2001:db8:0:0:1:0:0:1`. -/
theorem c4_compressed_matches_spec_witness :
    IPv6Parser.toCompressed [8193, 3512, 0, 0, 1, 0, 0, 1] =
      compressedSpec [8193, 3512, 0, 0, 1, 0, 0, 1] :=
  c4_compressed_matches_spec [8193, 3512, 0, 0, 1, 0, 0, 1] (by decide) (by decide)


/-! Claim C3 — render/parse round trip. -/

/-- Soundness of the run scanner: every reported run lies inside the list
and covers only elements satisfying the test.  The invariant carries the
current open run, which always ends at the scan position. -/
theorem zeroRunsGo_sound {α : Type} (p : α → Bool) (ys : List α) (d : α) :
    ∀ (xs : List α) (i : Nat) (cur : Option (Nat × Nat)),
    ys.drop i = xs → i ≤ ys.length →
    (∀ s0 l0, cur = some (s0, l0) →
      s0 + l0 = i ∧ ∀ j, s0 ≤ j → j < i → p (ys.getD j d) = true) →
    ∀ r ∈ IPv6Parser.zeroRunsGo p xs i cur,
      r.1 + r.2 ≤ ys.length ∧ ∀ j, r.1 ≤ j → j < r.1 + r.2 → p (ys.getD j d) = true := by
  intro xs
  induction xs with
  | nil =>
    intro i cur hdrop hi hcur r hr
    rcases cur with - | ⟨s0, l0⟩
    · simp [IPv6Parser.zeroRunsGo] at hr
    · have hrr : r = (s0, l0) := by
        simpa [IPv6Parser.zeroRunsGo] using hr
      subst hrr
      obtain ⟨hsum, hcontent⟩ := hcur s0 l0 rfl
      exact ⟨by omega, fun j hj1 hj2 => hcontent j hj1 (by omega)⟩
  | cons x rest ih =>
    intro i cur hdrop hi hcur r hr
    have hlt : i < ys.length := by
      by_contra hge
      rw [List.drop_eq_nil_of_le (by omega)] at hdrop
      exact absurd hdrop (by simp)
    have hget : ys.getD i d = x := by
      have h1 : (ys.drop i)[0]? = some x := by rw [hdrop]; simp
      rw [List.getElem?_drop] at h1
      rw [show i + 0 = i from rfl] at h1
      rw [List.getD_eq_getElem?_getD, h1]
      rfl
    have hdrop1 : ys.drop (i + 1) = rest := by
      have h2 := congrArg (List.drop 1) hdrop
      rw [List.drop_drop] at h2
      simpa using h2
    cases hpx : p x with
    | true =>
      rcases cur with - | ⟨s0, l0⟩
      · have hr2 : r ∈ IPv6Parser.zeroRunsGo p rest (i + 1) (some (i, 1)) := by
          simpa [IPv6Parser.zeroRunsGo, hpx] using hr
        refine ih (i + 1) (some (i, 1)) hdrop1 (by omega) ?_ r hr2
        intro s0 l0 heq
        injection heq with heq2
        injection heq2 with h3 h4
        subst h3; subst h4
        refine ⟨by omega, ?_⟩
        intro j hj1 hj2
        have hji : j = i := by omega
        subst hji
        rw [hget]
        exact hpx
      · obtain ⟨hsum, hcontent⟩ := hcur s0 l0 rfl
        have hr2 : r ∈ IPv6Parser.zeroRunsGo p rest (i + 1) (some (s0, l0 + 1)) := by
          simpa [IPv6Parser.zeroRunsGo, hpx] using hr
        refine ih (i + 1) (some (s0, l0 + 1)) hdrop1 (by omega) ?_ r hr2
        intro s1 l1 heq
        injection heq with heq2
        injection heq2 with h3 h4
        subst h3; subst h4
        refine ⟨by omega, ?_⟩
        intro j hj1 hj2
        by_cases hji : j < i
        · exact hcontent j hj1 hji
        · have hji2 : j = i := by omega
          subst hji2
          rw [hget]
          exact hpx
    | false =>
      rcases cur with - | ⟨s0, l0⟩
      · have hr2 : r ∈ IPv6Parser.zeroRunsGo p rest (i + 1) none := by
          simpa [IPv6Parser.zeroRunsGo, hpx] using hr
        exact ih (i + 1) none hdrop1 (by omega)
          (fun s0 l0 heq => absurd heq (by simp)) r hr2
      · obtain ⟨hsum, hcontent⟩ := hcur s0 l0 rfl
        have hr2 : r = (s0, l0) ∨ r ∈ IPv6Parser.zeroRunsGo p rest (i + 1) none := by
          have := hr
          simp only [IPv6Parser.zeroRunsGo, hpx, Bool.false_eq_true, if_false,
            List.mem_cons] at this
          exact this
        rcases hr2 with rfl | hr2
        · exact ⟨by omega, fun j hj1 hj2 => hcontent j hj1 (by omega)⟩
        · exact ih (i + 1) none hdrop1 (by omega)
            (fun s0 l0 heq => absurd heq (by simp)) r hr2

/-- Soundness of `zeroRunsBy`: runs lie inside the list and cover only
elements satisfying the test. -/
theorem zeroRunsBy_sound {α : Type} (p : α → Bool) (xs : List α) (d : α) (r : Nat × Nat)
    (hr : r ∈ IPv6Parser.zeroRunsBy p xs) :
    r.1 + r.2 ≤ xs.length ∧ ∀ j, r.1 ≤ j → j < r.1 + r.2 → p (xs.getD j d) = true :=
  zeroRunsGo_sound p xs d xs 0 none rfl (by omega)
    (fun s0 l0 heq => absurd heq (by simp)) r hr

/-- Reassembling a list around a run of elements known to equal zero. -/
theorem decompose_zero_run (w : List Int) (s l : Nat) (hsl : s + l ≤ w.length)
    (hz : ∀ j, s ≤ j → j < s + l → w.getD j 0 = 0) :
    w.take s ++ List.replicate l 0 ++ w.drop (s + l) = w := by
  have hmid : (w.drop s).take l = List.replicate l (0 : Int) := by
    rw [List.eq_replicate_iff]
    constructor
    · rw [List.length_take, List.length_drop]
      omega
    · intro b hb
      obtain ⟨i, hi, hbi⟩ := List.mem_iff_getElem.mp hb
      have hil : i < l := by
        have h2 := hi
        rw [List.length_take, List.length_drop] at h2
        omega
      have hslen : s + i < w.length := by
        have h2 := hi
        rw [List.length_take, List.length_drop] at h2
        omega
      rw [List.getElem_take, List.getElem_drop] at hbi
      have hz2 := hz (s + i) (by omega) (by omega)
      rw [List.getD_eq_getElem w 0 hslen] at hz2
      rw [← hbi]
      exact hz2
  rw [← hmid, show w.drop (s + l) = (w.drop s).drop l from (List.drop_drop l s w).symm,
    List.append_assoc, List.take_append_drop, List.take_append_drop]


/-- Non-empty groups join to a non-empty string. -/
theorem joinSep_eq_nil_iff (gs : List Str) (hne : ∀ g ∈ gs, g ≠ [])
    (hj : joinSep ':' gs = []) : gs = [] := by
  cases gs with
  | nil => rfl
  | cons g rest =>
    have hgne := hne g (List.mem_cons_self _ _)
    cases rest with
    | nil => exact absurd hj hgne
    | cons r1 r2 =>
      cases hgx : g with
      | nil => exact absurd hgx hgne
      | cons c0 gt =>
        rw [hgx] at hj
        have hjs : joinSep ':' ((c0 :: gt) :: r1 :: r2) =
            (c0 :: gt) ++ ':' :: joinSep ':' (r1 :: r2) := rfl
        rw [hjs] at hj
        exact absurd hj (by simp)

/-- Evaluation of `parseIPv6String` on a string with one `::` separating two
colon-joins of non-empty groups free of colons, slashes, dots and
whitespace (at least one side non-empty): the input reaches both validation
loops and the zero fill, and the result is determined by `parseGroups` on
the two sides. -/
theorem parseIPv6String_dcolon (gsL gsR : List Str)
    (hnontriv : gsL ≠ [] ∨ gsR ≠ [])
    (hg : ∀ g ∈ gsL ++ gsR, g ≠ [] ∧ ∀ c ∈ g,
      c ≠ ':' ∧ c ≠ '/' ∧ c ≠ '.' ∧ jsIsWhite c = false) :
    IPv6Parser.parseIPv6String (joinSep ':' gsL ++ ':' :: ':' :: joinSep ':' gsR) =
      (match IPv6Parser.parseGroups gsL, IPv6Parser.parseGroups gsR with
       | some vsL, some vsR =>
         if (vsL ++ List.replicate (8 - gsL.length - gsR.length) 0 ++ vsR).length ≠ 8 then
           IPv6Parser.mkInvalid "Invalid IPv6 address format".toList
         else { hextets := vsL ++ List.replicate (8 - gsL.length - gsR.length) 0 ++ vsR,
                prefixLength := 128, isValid := true, error := none }
       | _, _ => IPv6Parser.mkInvalid "Invalid hexadecimal value".toList) := by
  have hgL : ∀ g ∈ gsL, g ≠ [] ∧ ∀ c ∈ g, c ≠ ':' := fun g hgm =>
    ⟨(hg g (List.mem_append_left _ hgm)).1,
     fun c hc => ((hg g (List.mem_append_left _ hgm)).2 c hc).1⟩
  have hgR : ∀ g ∈ gsR, g ≠ [] ∧ ∀ c ∈ g, c ≠ ':' := fun g hgm =>
    ⟨(hg g (List.mem_append_right _ hgm)).1,
     fun c hc => ((hg g (List.mem_append_right _ hgm)).2 c hc).1⟩
  have hslash : '/' ∉ (joinSep ':' gsL ++ ':' :: ':' :: joinSep ':' gsR) := by
    intro hmem
    rw [List.mem_append] at hmem
    rcases hmem with h | h
    · rcases mem_joinSep h with h2 | ⟨g, hgm, hc⟩
      · exact absurd h2 (by decide)
      · exact ((hg g (List.mem_append_left _ hgm)).2 _ hc).2.1 rfl
    · simp only [List.mem_cons] at h
      rcases h with h | h | h
      · exact absurd h (by decide)
      · exact absurd h (by decide)
      · rcases mem_joinSep h with h2 | ⟨g, hgm, hc⟩
        · exact absurd h2 (by decide)
        · exact ((hg g (List.mem_append_right _ hgm)).2 _ hc).2.1 rfl
  have hdot : '.' ∉ (joinSep ':' gsL ++ ':' :: ':' :: joinSep ':' gsR) := by
    intro hmem
    rw [List.mem_append] at hmem
    rcases hmem with h | h
    · rcases mem_joinSep h with h2 | ⟨g, hgm, hc⟩
      · exact absurd h2 (by decide)
      · exact ((hg g (List.mem_append_left _ hgm)).2 _ hc).2.2.1 rfl
    · simp only [List.mem_cons] at h
      rcases h with h | h | h
      · exact absurd h (by decide)
      · exact absurd h (by decide)
      · rcases mem_joinSep h with h2 | ⟨g, hgm, hc⟩
        · exact absurd h2 (by decide)
        · exact ((hg g (List.mem_append_right _ hgm)).2 _ hc).2.2.1 rfl
  have hadjA : hasAdjColon (joinSep ':' gsL ++ [':']) = false :=
    hasAdjColon_joinSep_colon gsL hgL
  have hsplitB : splitCC (joinSep ':' gsR) = [joinSep ':' gsR] :=
    splitCC_no_adj _ (hasAdjColon_joinSep gsR hgR)
  have hparts : splitCC (joinSep ':' gsL ++ ':' :: ':' :: joinSep ':' gsR) =
      [joinSep ':' gsL, joinSep ':' gsR] := by
    rw [splitCC_append_sep _ hadjA, hsplitB]
  have hne2 : (joinSep ':' gsL ++ ':' :: ':' :: joinSep ':' gsR) ≠ "::".toList := by
    intro heq
    have hlen2 := congrArg List.length heq
    rw [List.length_append] at hlen2
    simp only [List.length_cons] at hlen2
    have hlen3 : ("::".toList).length = 2 := rfl
    rw [hlen3] at hlen2
    have hLnil : joinSep ':' gsL = [] :=
      List.length_eq_zero.mp (by omega)
    have hRnil : joinSep ':' gsR = [] :=
      List.length_eq_zero.mp (by omega)
    rcases hnontriv with h | h
    · exact h (joinSep_eq_nil_iff gsL (fun g hgm => (hgL g hgm).1) hLnil)
    · exact h (joinSep_eq_nil_iff gsR (fun g hgm => (hgR g hgm).1) hRnil)
  have hLparts : (if (joinSep ':' gsL).isEmpty = true then ([] : List Str)
      else splitOnChar ':' (joinSep ':' gsL)) = gsL := by
    cases gsL with
    | nil => rfl
    | cons g rest =>
      have hgne := (hgL g (List.mem_cons_self _ _)).1
      obtain ⟨c0, gt, rfl⟩ : ∃ c0 gt, g = c0 :: gt := by
        cases hgx : g with
        | nil => exact absurd hgx hgne
        | cons c0 gt => exact ⟨_, _, rfl⟩
      have hemp : (joinSep ':' ((c0 :: gt) :: rest)).isEmpty = false := by
        cases rest with
        | nil => rfl
        | cons r1 r2 => rfl
      rw [hemp]
      simp only [Bool.false_eq_true, if_false]
      exact splitOnChar_joinSep ':' _ (by simp) (fun g2 hg2 => (hgL g2 hg2).2)
  have hRparts : (if (joinSep ':' gsR).isEmpty = true then ([] : List Str)
      else splitOnChar ':' (joinSep ':' gsR)) = gsR := by
    cases gsR with
    | nil => rfl
    | cons g rest =>
      have hgne := (hgR g (List.mem_cons_self _ _)).1
      obtain ⟨c0, gt, rfl⟩ : ∃ c0 gt, g = c0 :: gt := by
        cases hgx : g with
        | nil => exact absurd hgx hgne
        | cons c0 gt => exact ⟨_, _, rfl⟩
      have hemp : (joinSep ':' ((c0 :: gt) :: rest)).isEmpty = false := by
        cases rest with
        | nil => rfl
        | cons r1 r2 => rfl
      rw [hemp]
      simp only [Bool.false_eq_true, if_false]
      exact splitOnChar_joinSep ':' _ (by simp) (fun g2 hg2 => (hgR g2 hg2).2)
  have hcL : IPv6Parser.countNonEmpty gsL = gsL.length := by
    unfold IPv6Parser.countNonEmpty
    rw [List.filter_eq_self.mpr]
    intro g hgm
    cases hgx : g with
    | nil => exact absurd hgx (hgL g hgm).1
    | cons c0 gt => rfl
  have hcR : IPv6Parser.countNonEmpty gsR = gsR.length := by
    unfold IPv6Parser.countNonEmpty
    rw [List.filter_eq_self.mpr]
    intro g hgm
    cases hgx : g with
    | nil => exact absurd hgx (hgR g hgm).1
    | cons c0 gt => rfl
  unfold IPv6Parser.parseIPv6String
  rw [prefixSuffixMatch_none _ hslash]
  unfold IPv6Parser.parseIPv6Body
  rw [if_neg hne2, ipv4MappedMatch_none_dot _ hdot]
  unfold IPv6Parser.parseColonHex
  dsimp only
  rw [hparts]
  have hL : ([joinSep ':' gsL, joinSep ':' gsR] : List Str).length = 2 := rfl
  rw [hL]
  rw [if_neg (by omega)]
  rw [if_pos rfl, if_pos rfl, if_pos rfl]
  simp only [List.getD_cons_zero, List.getD_cons_succ]
  rw [hLparts, hRparts, hcL, hcR]
  cases hpgL : IPv6Parser.parseGroups gsL with
  | none => rfl
  | some vsL =>
    dsimp only
    cases hpgR : IPv6Parser.parseGroups gsR with
    | none => rfl
    | some vsR => rfl


/-- C3 (confirmed): parsing the expanded rendering of a valid Word128, or
parsing its compressed rendering, yields a valid record carrying exactly
that Word128 (with the default /128 prefix and no error). -/
theorem c3_render_parse_round_trip (w : List Int) (hlen : w.length = 8)
    (hr : ∀ x ∈ w, 0 ≤ x ∧ x ≤ 65535) :
    IPv6Parser.parseIPv6String (IPv6Parser.toExpanded w) =
      { hextets := w, prefixLength := 128, isValid := true, error := none } ∧
    IPv6Parser.parseIPv6String (IPv6Parser.toCompressed w) =
      { hextets := w, prefixLength := 128, isValid := true, error := none } := by
  constructor
  · show IPv6Parser.parseIPv6String
        (joinSep ':' (w.map (fun h => padStart 4 '0' (intToHexStr h)))) = _
    have hgsE : ∀ g ∈ w.map (fun h => padStart 4 '0' (intToHexStr h)),
        g ≠ [] ∧ ∀ c ∈ g, c ≠ ':' ∧ c ≠ '/' ∧ jsIsWhite c = false := by
      intro g hgm
      obtain ⟨x, hx, rfl⟩ := List.mem_map.mp hgm
      have hwf := padded_group_wf x (hr x hx)
      refine ⟨hwf.1, fun c hc => ?_⟩
      have hhex := hwf.2 c hc
      have hsp := isHexDigit_ne_special hhex
      exact ⟨hsp.1, hsp.2.2.2.2.1, isHexDigit_not_white hhex⟩
    rw [parseIPv6String_plain _ (by rw [List.length_map, hlen]) hgsE,
      parseGroups_padded w hr]
    dsimp only
    rw [if_neg (by omega)]
  · rw [toCompressed_eq_spec w hlen hr]
    unfold compressedSpec
    cases hselx : selectRun ((IPv6Parser.zeroRunsBy (fun x => x == 0) w).filter
        (fun r => 2 ≤ r.2)) with
    | none =>
      dsimp only
      have hgsC : ∀ g ∈ w.map intToHexStr, g ≠ [] ∧ ∀ c ∈ g,
          c ≠ ':' ∧ c ≠ '/' ∧ jsIsWhite c = false := by
        intro g hgm
        obtain ⟨x, hx, rfl⟩ := List.mem_map.mp hgm
        have hwf := unpadded_group_wf x (hr x hx)
        refine ⟨hwf.1, fun c hc => ?_⟩
        have hsp := isHexDigit_ne_special (hwf.2 c hc)
        exact ⟨hsp.1, hsp.2.2.2.2.1, isHexDigit_not_white (hwf.2 c hc)⟩
      have hpg : IPv6Parser.parseGroups (w.map intToHexStr) = some w :=
        parseGroups_unpadded w hr
      rw [parseIPv6String_plain _ (by rw [List.length_map, hlen]) hgsC, hpg]
      dsimp only
      rw [if_neg (by omega)]
    | some r =>
      obtain ⟨s, l⟩ := r
      dsimp only
      have hmem := selectRun_mem hselx
      rw [List.mem_filter] at hmem
      obtain ⟨hmemruns, h2l⟩ := hmem
      have h2l2 : 2 ≤ l := by simpa using h2l
      obtain ⟨hb, hcont⟩ := zeroRunsBy_sound (fun x => x == 0) w (0 : Int) (s, l) hmemruns
      dsimp only at hb hcont
      rw [hlen] at hb
      have hzero : ∀ j, s ≤ j → j < s + l → w.getD j 0 = 0 := by
        intro j h1 h2
        have h3 := hcont j h1 h2
        rwa [beq_iff_eq] at h3
      have hdecomp := decompose_zero_run w s l (by omega) hzero
      by_cases hcase : s = 0 ∧ l = 8
      · obtain ⟨rfl, rfl⟩ := hcase
        have hw0 : w = List.replicate 8 0 := by
          have h4 := hdecomp
          rw [List.take_zero, List.drop_eq_nil_of_le (by omega), List.nil_append,
            List.append_nil] at h4
          exact h4.symm
        have hdr : w.drop (0 + 8) = [] := by
          rw [Nat.zero_add]
          exact List.drop_eq_nil_of_le (by omega)
        rw [List.take_zero, List.map_nil, hdr, List.map_nil]
        show IPv6Parser.parseIPv6String (':' :: ':' :: []) = _
        have hval : IPv6Parser.parseIPv6String (':' :: ':' :: []) =
            { hextets := List.replicate 8 0, prefixLength := 128,
              isValid := true, error := none } := by decide
        rw [hval, hw0]
      · have hnt : (w.take s).map intToHexStr ≠ [] ∨ (w.drop (s + l)).map intToHexStr ≠ [] := by
          by_cases hs0 : s = 0
          · right
            apply List.ne_nil_of_length_pos
            rw [List.length_map, List.length_drop, hlen]
            have : ¬(l = 8) := fun h8 => hcase ⟨hs0, h8⟩
            omega
          · left
            apply List.ne_nil_of_length_pos
            rw [List.length_map, List.length_take, hlen]
            omega
        have hgall : ∀ g ∈ (w.take s).map intToHexStr ++ (w.drop (s + l)).map intToHexStr,
            g ≠ [] ∧ ∀ c ∈ g, c ≠ ':' ∧ c ≠ '/' ∧ c ≠ '.' ∧ jsIsWhite c = false := by
          intro g hgm
          have hx2 : ∃ x ∈ w, intToHexStr x = g := by
            rw [List.mem_append] at hgm
            rcases hgm with h | h
            · obtain ⟨x, hx, rfl⟩ := List.mem_map.mp h
              exact ⟨x, List.mem_of_mem_take hx, rfl⟩
            · obtain ⟨x, hx, rfl⟩ := List.mem_map.mp h
              exact ⟨x, List.mem_of_mem_drop hx, rfl⟩
          obtain ⟨x, hx, rfl⟩ := hx2
          have hwf := unpadded_group_wf x (hr x hx)
          refine ⟨hwf.1, fun c hc => ?_⟩
          have hsp := isHexDigit_ne_special (hwf.2 c hc)
          exact ⟨hsp.1, hsp.2.2.2.2.1, hsp.2.2.2.1, isHexDigit_not_white (hwf.2 c hc)⟩
        have hpgL : IPv6Parser.parseGroups ((w.take s).map intToHexStr) =
            some (w.take s) :=
          parseGroups_unpadded (w.take s) (fun x hx => hr x (List.mem_of_mem_take hx))
        have hpgR : IPv6Parser.parseGroups ((w.drop (s + l)).map intToHexStr) =
            some (w.drop (s + l)) :=
          parseGroups_unpadded (w.drop (s + l)) (fun x hx => hr x (List.mem_of_mem_drop hx))
        rw [List.append_assoc]
        show IPv6Parser.parseIPv6String (joinSep ':' ((w.take s).map intToHexStr) ++
          ':' :: ':' :: joinSep ':' ((w.drop (s + l)).map intToHexStr)) = _
        rw [parseIPv6String_dcolon _ _ hnt hgall, hpgL, hpgR]
        dsimp only
        have hglen : ((w.take s).map intToHexStr).length = s := by
          rw [List.length_map, List.length_take, hlen]
          omega
        have hgrlen : ((w.drop (s + l)).map intToHexStr).length = 8 - (s + l) := by
          rw [List.length_map, List.length_drop, hlen]
        rw [hglen, hgrlen]
        have hcount : 8 - s - (8 - (s + l)) = l := by omega
        rw [hcount, hdecomp, hlen]
        rw [if_neg (by omega)]

/-- Concrete instance of C3 at `2001:db8::1`: both renderings parse back to
the same words. -/
theorem c3_render_parse_round_trip_witness :
    IPv6Parser.parseIPv6String (IPv6Parser.toExpanded [8193, 3512, 0, 0, 0, 0, 0, 1]) =
      { hextets := [8193, 3512, 0, 0, 0, 0, 0, 1], prefixLength := 128,
        isValid := true, error := none } ∧
    IPv6Parser.parseIPv6String (IPv6Parser.toCompressed [8193, 3512, 0, 0, 0, 0, 0, 1]) =
      { hextets := [8193, 3512, 0, 0, 0, 0, 0, 1], prefixLength := 128,
        isValid := true, error := none } :=
  c3_render_parse_round_trip [8193, 3512, 0, 0, 0, 0, 0, 1] (by decide) (by decide)


/-! Claim C9 — arithmetic of the subnet bit write. -/

/-- JavaScript `>>` on a small non-negative operand is division by a power
of two. -/
theorem jsShr_small (x k : Nat) (hx : x < 2147483648) (hk : k < 32) :
    jsShr (x : Int) k = ((x / 2 ^ k : Nat) : Int) := by
  unfold jsShr toInt32
  rw [Nat.mod_eq_of_lt hk, toUint32_natCast (by omega), int32OfUint_small hx]
  have h2 : ((2 : Int)) ^ k = ((2 ^ k : Nat) : Int) := by push_cast; ring
  rw [h2, Int.fdiv_eq_tdiv (Int.natCast_nonneg x) (Int.natCast_nonneg _), ← Int.ofNat_tdiv]

/-- JavaScript `&` on small non-negative operands is the natural `land`. -/
theorem jsAnd_small (x y : Nat) (hx : x < 2147483648) (hy : y < 2147483648) :
    jsAnd (x : Int) (y : Int) = ((x &&& y : Nat) : Int) := by
  unfold jsAnd
  have hand : x &&& y < 2147483648 := by
    have h31 : y < 2 ^ 31 := by omega
    have := Nat.and_lt_two_pow x h31
    omega
  rw [toUint32_natCast (by omega), toUint32_natCast (by omega), int32OfUint_small hand]

/-- `ToUint32` undoes the signed reinterpretation. -/
theorem toUint32_int32OfUint (n : Nat) (h : n < 4294967296) :
    toUint32 (int32OfUint n) = n := by
  unfold int32OfUint toUint32
  by_cases h2 : 2147483648 ≤ n
  · rw [if_pos h2]
    show (((n : Int) - 4294967296) % 4294967296).toNat = n
    rw [show ((n : Int) - 4294967296) % 4294967296 = (n : Int) % 4294967296 by
      simp [Int.sub_emod]]
    rw [Int.emod_eq_of_lt (by omega) (by omega)]
    exact Int.toNat_ofNat n
  · rw [if_neg h2]
    show (((n : Int)) % 4294967296).toNat = n
    rw [Int.emod_eq_of_lt (by omega) (by omega)]
    exact Int.toNat_ofNat n

/-- The 32-bit complement of a contiguous bit mask, as a natural number. -/
theorem complement_mask_eq (s b : Nat) (hsb : s + b ≤ 16) :
    4294967295 - (2 ^ b - 1) * 2 ^ s =
      2 ^ (s + b) * (2 ^ (32 - (s + b)) - 1) + (2 ^ s - 1) := by
  have h1 : 1 ≤ 2 ^ s := Nat.one_le_two_pow
  have h2 : 1 ≤ 2 ^ b := Nat.one_le_two_pow
  have h3 : 2 ^ (s + b) ≤ 2 ^ 16 := Nat.pow_le_pow_right (by omega) hsb
  have h4 : 2 ^ (32 - (s + b)) * 2 ^ (s + b) = 4294967296 := by
    rw [← pow_add]
    have he : 32 - (s + b) + (s + b) = 32 := by omega
    rw [he]
    norm_num
  have hbs : 2 ^ b * 2 ^ s = 2 ^ (s + b) := by rw [← pow_add, Nat.add_comm]
  have h5 : (2 ^ b - 1) * 2 ^ s = 2 ^ (s + b) - 2 ^ s := by
    rw [Nat.sub_mul, one_mul, hbs]
  have h6 : 2 ^ (s + b) * (2 ^ (32 - (s + b)) - 1) =
      2 ^ (32 - (s + b)) * 2 ^ (s + b) - 2 ^ (s + b) := by
    rw [Nat.mul_sub, Nat.mul_one, Nat.mul_comm]
  have h7 : 2 ^ s ≤ 2 ^ (s + b) := Nat.pow_le_pow_right (by omega) (by omega)
  omega

/-- Clearing a contiguous bit range `[s, s+b)` of a 16-bit word by `&` with
the 32-bit complement of the mask. -/
theorem and_complement_mask (W s b : Nat) (hW : W < 65536) (hsb : s + b ≤ 16) :
    W &&& (4294967295 - (2 ^ b - 1) * 2 ^ s) =
      2 ^ (s + b) * (W / 2 ^ (s + b)) + W % 2 ^ s := by
  rw [complement_mask_eq s b hsb]
  have h1 : 1 ≤ 2 ^ s := Nat.one_le_two_pow
  have h7 : 2 ^ s ≤ 2 ^ (s + b) := Nat.pow_le_pow_right (by omega) (by omega)
  have hs1 : 2 ^ s - 1 < 2 ^ (s + b) := by omega
  have hmod : W % 2 ^ s < 2 ^ (s + b) := by
    have hm := Nat.mod_lt W (show 0 < 2 ^ s by omega)
    omega
  apply Nat.eq_of_testBit_eq
  intro j
  rw [Nat.testBit_land, Nat.testBit_mul_pow_two_add _ hs1 j,
    Nat.testBit_mul_pow_two_add _ hmod j]
  by_cases hj1 : j < s + b
  · rw [if_pos hj1, if_pos hj1, Nat.testBit_two_pow_sub_one, Nat.testBit_mod_two_pow]
    by_cases hj2 : j < s
    · simp [hj2, Bool.and_comm]
    · simp [hj2]
  · rw [if_neg hj1, if_neg hj1, Nat.testBit_two_pow_sub_one,
      ← Nat.shiftRight_eq_div_pow, Nat.testBit_shiftRight,
      show s + b + (j - (s + b)) = j from by omega]
    by_cases hj32 : j < 32
    · have hlt : j - (s + b) < 32 - (s + b) := by omega
      simp [hlt]
    · have hWf : W.testBit j = false :=
        Nat.testBit_eq_false_of_lt (lt_of_lt_of_le (show W < 2 ^ 16 by omega)
          (Nat.pow_le_pow_right (by omega) (by omega)))
      simp [hWf]

/-- `|` of a word with bits `[s, s+b)` cleared and a value occupying exactly
those bits is addition. -/
theorem lor_shifted_add (Wh part Wlo s b : Nat) (hpart : part < 2 ^ b)
    (hlo : Wlo < 2 ^ s) :
    (2 ^ (s + b) * Wh + Wlo) ||| part * 2 ^ s =
      2 ^ (s + b) * Wh + part * 2 ^ s + Wlo := by
  have hps : 2 ^ s * part + Wlo < 2 ^ (s + b) := by
    have hg : 2 ^ s * part + Wlo < 2 ^ s * (part + 1) := by
      rw [Nat.mul_add, Nat.mul_one]
      omega
    have hg2 : 2 ^ s * (part + 1) ≤ 2 ^ s * 2 ^ b := Nat.mul_le_mul_left _ (by omega)
    have hg3 : 2 ^ s * 2 ^ b = 2 ^ (s + b) := by rw [← pow_add]
    omega
  have hlo2 : Wlo < 2 ^ (s + b) := by
    have h7 : 2 ^ s ≤ 2 ^ (s + b) := Nat.pow_le_pow_right (by omega) (by omega)
    omega
  rw [show 2 ^ (s + b) * Wh + part * 2 ^ s + Wlo =
      2 ^ (s + b) * Wh + (2 ^ s * part + Wlo) from by ring]
  apply Nat.eq_of_testBit_eq
  intro j
  rw [Nat.testBit_lor, Nat.testBit_mul_pow_two_add Wh hlo2 j,
    Nat.testBit_mul_pow_two_add Wh hps j,
    Nat.testBit_mul_pow_two_add part hlo j,
    ← Nat.shiftLeft_eq part s, Nat.testBit_shiftLeft]
  by_cases hj1 : j < s
  · rw [if_pos (show j < s + b from by omega), if_pos (show j < s + b from by omega),
      if_pos hj1]
    have hfalse : decide (j ≥ s) = false := by
      simp only [decide_eq_false_iff_not]
      omega
    simp [hfalse]
  · by_cases hj2 : j < s + b
    · rw [if_pos hj2, if_pos hj2, if_neg hj1]
      have hlofalse : Wlo.testBit j = false :=
        Nat.testBit_eq_false_of_lt (lt_of_lt_of_le hlo
          (Nat.pow_le_pow_right (by omega) (by omega)))
      have htrue : decide (j ≥ s) = true := by
        simp only [decide_eq_true_eq]
        omega
      simp [hlofalse, htrue]
    · rw [if_neg hj2, if_neg hj2]
      have hpfalse : part.testBit (j - s) = false :=
        Nat.testBit_eq_false_of_lt (lt_of_lt_of_le hpart
          (Nat.pow_le_pow_right (by omega) (by omega)))
      simp [hpfalse]

/-- The full `&`-with-`~mask` clear, at the JavaScript operator level. -/
theorem jsAnd_not_mask (W s b : Nat) (hW : W < 65536) (hsb : s + b ≤ 16) :
    jsAnd (W : Int) (jsNot (((2 ^ b - 1) * 2 ^ s : Nat) : Int)) =
      ((2 ^ (s + b) * (W / 2 ^ (s + b)) + W % 2 ^ s : Nat) : Int) := by
  have hbs : 2 ^ b * 2 ^ s = 2 ^ (s + b) := by rw [← pow_add, Nat.add_comm]
  have h3 : 2 ^ (s + b) ≤ 2 ^ 16 := Nat.pow_le_pow_right (by omega) hsb
  have h5 : (2 ^ b - 1) * 2 ^ s = 2 ^ (s + b) - 2 ^ s := by
    rw [Nat.sub_mul, one_mul, hbs]
  have h1 : 1 ≤ 2 ^ s := Nat.one_le_two_pow
  have hmask : (2 ^ b - 1) * 2 ^ s < 65536 := by omega
  unfold jsAnd jsNot
  rw [toUint32_natCast (show W < 4294967296 from by omega)]
  rw [toUint32_natCast (show (2 ^ b - 1) * 2 ^ s < 4294967296 from by omega)]
  rw [toUint32_int32OfUint _ (by omega)]
  rw [and_complement_mask W s b hW hsb]
  refine int32OfUint_small ?_
  have hd : W / 2 ^ (s + b) * 2 ^ (s + b) ≤ W := Nat.div_mul_le_self _ _
  have hmlt : W % 2 ^ s < 2 ^ s := Nat.mod_lt _ (by omega)
  have hs16 : 2 ^ s ≤ 2 ^ 16 := Nat.pow_le_pow_right (by omega) (by omega)
  have hcomm : 2 ^ (s + b) * (W / 2 ^ (s + b)) = W / 2 ^ (s + b) * 2 ^ (s + b) := by ring
  omega

/-- Splitting a power-of-two remainder at an intermediate position. -/
theorem mod_pow_split (x n k : Nat) :
    x % 2 ^ (n + k) = x / 2 ^ n % 2 ^ k * 2 ^ n + x % 2 ^ n := by
  rw [pow_add, Nat.mod_mul]
  ring

/-- A remainder taken high enough does not disturb a deeper chunk. -/
theorem div_mod_mod_pow (a s b n : Nat) (h : s + b ≤ n) :
    a % 2 ^ n / 2 ^ s % 2 ^ b = a / 2 ^ s % 2 ^ b := by
  rw [Nat.div_mod_eq_mod_mul_div, Nat.div_mod_eq_mod_mul_div]
  congr 1
  rw [show (2 : Nat) ^ s * 2 ^ b = 2 ^ (s + b) from by rw [← pow_add]]
  exact Nat.mod_mod_of_dvd a (Nat.pow_dvd_pow 2 h)

/-- Peeling the top `b` bits off the top `rem` bits of an index. -/
theorem div_chunk (i rem b : Nat) (h : b ≤ rem) :
    i / 2 ^ (rem - b) = 2 ^ b * (i / 2 ^ rem) + i / 2 ^ (rem - b) % 2 ^ b := by
  have h1 : i / 2 ^ (rem - b) / 2 ^ b = i / 2 ^ rem := by
    rw [Nat.div_div_eq_div_mul, ← pow_add, show rem - b + b = rem from by omega]
  have h2 := Nat.div_add_mod (i / 2 ^ (rem - b)) (2 ^ b)
  rw [h1] at h2
  omega


/-- The value of an in-range word list is bounded by its bit width. -/
theorem wordsVal_lt : ∀ (xs : List Int), (∀ x ∈ xs, 0 ≤ x ∧ x < 65536) →
    wordsVal xs < 2 ^ (16 * xs.length) := by
  intro xs
  induction xs with
  | nil => intro _; norm_num [wordsVal]
  | cons x rest ih =>
    intro hr
    have hx := hr x (List.mem_cons_self _ _)
    have hih := ih (fun y hy => hr y (List.mem_cons_of_mem _ hy))
    show x.toNat * 2 ^ (16 * rest.length) + wordsVal rest < 2 ^ (16 * (x :: rest).length)
    have hxn : x.toNat < 65536 := by omega
    have hpow : 2 ^ (16 * (x :: rest).length) = 65536 * 2 ^ (16 * rest.length) := by
      rw [List.length_cons, Nat.mul_add, Nat.mul_one, pow_add]
      ring
    rw [hpow]
    calc x.toNat * 2 ^ (16 * rest.length) + wordsVal rest
        < x.toNat * 2 ^ (16 * rest.length) + 2 ^ (16 * rest.length) := by omega
      _ = (x.toNat + 1) * 2 ^ (16 * rest.length) := by ring
      _ ≤ 65536 * 2 ^ (16 * rest.length) := Nat.mul_le_mul_right _ (by omega)

/-- Extracting one word of an in-range list from its packed value. -/
theorem wordsVal_getD : ∀ (xs : List Int), (∀ x ∈ xs, 0 ≤ x ∧ x < 65536) →
    ∀ k, k < xs.length →
    wordsVal xs / 2 ^ (16 * (xs.length - 1 - k)) % 2 ^ 16 = (xs.getD k 0).toNat := by
  intro xs
  induction xs with
  | nil => intro _ k hk; simp at hk
  | cons x rest ih =>
    intro hr k hk
    have hx := hr x (List.mem_cons_self _ _)
    have hwlt := wordsVal_lt rest (fun y hy => hr y (List.mem_cons_of_mem _ hy))
    cases k with
    | zero =>
      show (x.toNat * 2 ^ (16 * rest.length) + wordsVal rest) /
          2 ^ (16 * ((x :: rest).length - 1 - 0)) % 2 ^ 16 = x.toNat
      have hexp : (x :: rest).length - 1 - 0 = rest.length := by simp
      rw [hexp]
      have hdiv : (x.toNat * 2 ^ (16 * rest.length) + wordsVal rest) /
          2 ^ (16 * rest.length) = x.toNat := by
        rw [show x.toNat * 2 ^ (16 * rest.length) + wordsVal rest =
          wordsVal rest + 2 ^ (16 * rest.length) * x.toNat from by ring]
        rw [Nat.add_mul_div_left _ _ (by positivity), Nat.div_eq_of_lt hwlt]
        omega
      rw [hdiv, Nat.mod_eq_of_lt (by omega)]
    | succ k2 =>
      have hk2 : k2 < rest.length := by
        simp only [List.length_cons] at hk
        omega
      show (x.toNat * 2 ^ (16 * rest.length) + wordsVal rest) /
          2 ^ (16 * ((x :: rest).length - 1 - (k2 + 1))) % 2 ^ 16 = (rest.getD k2 0).toNat
      have hexp : (x :: rest).length - 1 - (k2 + 1) = rest.length - 1 - k2 := by
        simp only [List.length_cons]
        omega
      rw [hexp]
      have hee : 16 * (rest.length - 1 - k2) + 16 ≤ 16 * rest.length := by
        have h9 : rest.length - 1 - k2 + 1 ≤ rest.length := by omega
        calc 16 * (rest.length - 1 - k2) + 16 = 16 * (rest.length - 1 - k2 + 1) := by ring
          _ ≤ 16 * rest.length := Nat.mul_le_mul_left _ h9
      have hE : 16 * rest.length =
          16 * rest.length - 16 * (rest.length - 1 - k2) - 16 + 16 +
            16 * (rest.length - 1 - k2) := by omega
      have hxsplit : x.toNat * 2 ^ (16 * rest.length) =
          x.toNat * 2 ^ (16 * rest.length - 16 * (rest.length - 1 - k2) - 16) * 2 ^ 16 *
            2 ^ (16 * (rest.length - 1 - k2)) := by
        conv_lhs => rw [hE]
        rw [pow_add, pow_add]
        ring
      rw [hxsplit]
      rw [show x.toNat * 2 ^ (16 * rest.length - 16 * (rest.length - 1 - k2) - 16) * 2 ^ 16 *
            2 ^ (16 * (rest.length - 1 - k2)) + wordsVal rest =
          wordsVal rest + 2 ^ (16 * (rest.length - 1 - k2)) *
            (x.toNat * 2 ^ (16 * rest.length - 16 * (rest.length - 1 - k2) - 16) * 2 ^ 16)
          from by ring]
      rw [Nat.add_mul_div_left _ _ (by positivity : (0 : Nat) < 2 ^ (16 * (rest.length - 1 - k2)))]
      rw [Nat.add_mul_mod_self_right]
      exact ih (fun y hy => hr y (List.mem_cons_of_mem _ hy)) k2 hk2

/-- Replacing one word changes the packed value by the weighted difference. -/
theorem wordsVal_set : ∀ (xs : List Int) (k : Nat) (v : Int), k < xs.length →
    wordsVal (xs.set k v) + (xs.getD k 0).toNat * 2 ^ (16 * (xs.length - 1 - k)) =
      wordsVal xs + v.toNat * 2 ^ (16 * (xs.length - 1 - k)) := by
  intro xs
  induction xs with
  | nil => intro k v hk; simp at hk
  | cons x rest ih =>
    intro k v hk
    cases k with
    | zero =>
      show wordsVal (v :: rest) + x.toNat * 2 ^ (16 * ((x :: rest).length - 1 - 0)) =
        wordsVal (x :: rest) + v.toNat * 2 ^ (16 * ((x :: rest).length - 1 - 0))
      have hexp : (x :: rest).length - 1 - 0 = rest.length := by simp
      rw [hexp]
      show v.toNat * 2 ^ (16 * rest.length) + wordsVal rest +
          x.toNat * 2 ^ (16 * rest.length) =
        x.toNat * 2 ^ (16 * rest.length) + wordsVal rest +
          v.toNat * 2 ^ (16 * rest.length)
      ring
    | succ k2 =>
      have hk2 : k2 < rest.length := by
        simp only [List.length_cons] at hk
        omega
      show x.toNat * 2 ^ (16 * (rest.set k2 v).length) + wordsVal (rest.set k2 v) +
          (rest.getD k2 0).toNat * 2 ^ (16 * ((x :: rest).length - 1 - (k2 + 1))) =
        x.toNat * 2 ^ (16 * rest.length) + wordsVal rest +
          v.toNat * 2 ^ (16 * ((x :: rest).length - 1 - (k2 + 1)))
      have hexp : (x :: rest).length - 1 - (k2 + 1) = rest.length - 1 - k2 := by
        simp only [List.length_cons]
        omega
      rw [List.length_set, hexp]
      have ih2 := ih k2 v hk2
      generalize hG : (rest.getD k2 0).toNat * 2 ^ (16 * (rest.length - 1 - k2)) = G at ih2 ⊢
      generalize hV : v.toNat * 2 ^ (16 * (rest.length - 1 - k2)) = V at ih2 ⊢
      generalize hX : x.toNat * 2 ^ (16 * rest.length) = X
      omega


/-- One unfolding of the subnet loop when the guard holds. -/
theorem subnetLoopAux_succ (hexIdx bitsInHextet : Nat) (ci : Int) (fuel : Nat)
    (result : List Int) (remaining ch : Nat) (h : 0 < remaining ∧ ch < 8) :
    IPv6Subnetting.subnetLoopAux hexIdx bitsInHextet ci (fuel + 1) result remaining ch =
      IPv6Subnetting.subnetLoopAux hexIdx bitsInHextet ci fuel
        (result.set ch (jsOr
          (jsAnd (result.getD ch 0)
            (jsNot (jsShl
              (jsShl 1 (min remaining (16 - (if ch = hexIdx then bitsInHextet else 0))) - 1)
              (16 - (if ch = hexIdx then bitsInHextet else 0) -
                min remaining (16 - (if ch = hexIdx then bitsInHextet else 0))))))
          (jsShl (jsAnd
              (jsShr ci (remaining -
                min remaining (16 - (if ch = hexIdx then bitsInHextet else 0))))
              (jsShl 1 (min remaining (16 - (if ch = hexIdx then bitsInHextet else 0))) - 1))
            (16 - (if ch = hexIdx then bitsInHextet else 0) -
              min remaining (16 - (if ch = hexIdx then bitsInHextet else 0))))))
        (remaining - min remaining (16 - (if ch = hexIdx then bitsInHextet else 0))) (ch + 1) := by
  conv_lhs => rw [IPv6Subnetting.subnetLoopAux]
  rw [if_pos h]


/-- Invariant of the subnet write loop for narrow subnet ranges
(`t - p ≤ 31`): when entered at hextet `ch` with `remaining` index bits
still to place and the written position `t - remaining` aligned to the
hextet grid, it finishes with the index bits occupying exactly the address
range `[p, t)` and every other bit untouched, all words staying 16-bit. -/
theorem subnetLoopAux_spec (base : List Int) (p t i : Nat)
    (hlen : base.length = 8) (hrange : ∀ x ∈ base, 0 ≤ x ∧ x < 65536)
    (hpt : p < t) (ht : t ≤ 128) (hnarrow : t - p ≤ 31) (hi : i < 2 ^ (t - p)) :
    ∀ (fuel : Nat) (result : List Int) (remaining ch : Nat),
    8 ≤ fuel + ch →
    result.length = 8 →
    (∀ x ∈ result, 0 ≤ x ∧ x < 65536) →
    remaining ≤ t - p →
    p ≤ t - remaining →
    (0 < remaining → t - remaining = 16 * ch + (if ch = p / 16 then p % 16 else 0)) →
    (∀ j, ch ≤ j → j < 8 → result.getD j 0 = base.getD j 0) →
    wordsVal result =
      wordsVal base / 2 ^ (128 - p) * 2 ^ (128 - p) +
        i / 2 ^ remaining * 2 ^ (128 - (t - remaining)) +
        wordsVal base % 2 ^ (128 - (t - remaining)) →
    (IPv6Subnetting.subnetLoopAux (p / 16) (p % 16) (i : Int) fuel result
        remaining ch).length = 8 ∧
    (∀ x ∈ IPv6Subnetting.subnetLoopAux (p / 16) (p % 16) (i : Int) fuel result remaining ch,
      0 ≤ x ∧ x < 65536) ∧
    wordsVal (IPv6Subnetting.subnetLoopAux (p / 16) (p % 16) (i : Int) fuel result
        remaining ch) =
      wordsVal base / 2 ^ (128 - p) * 2 ^ (128 - p) + i * 2 ^ (128 - t) +
        wordsVal base % 2 ^ (128 - t) := by
  intro fuel
  induction fuel with
  | zero =>
    intro result remaining ch hfc hrl hrr hrem hple hpos hagree hval
    have hrem0 : remaining = 0 := by
      by_contra h0
      have hp2 := hpos (by omega)
      have hd : (if ch = p / 16 then p % 16 else 0) ≤ 15 := by split <;> omega
      omega
    subst hrem0
    refine ⟨hrl, hrr, ?_⟩
    show wordsVal result = _
    rw [hval]
    norm_num
  | succ fuel ih =>
    intro result remaining ch hfc hrl hrr hrem hple hpos hagree hval
    by_cases hguard : 0 < remaining ∧ ch < 8
    · obtain ⟨hrempos, hch8⟩ := hguard
      have hpos2 := hpos hrempos
      have hδle : (if ch = p / 16 then p % 16 else 0) ≤ 15 := by split <;> omega
      have hchge : p / 16 ≤ ch := by
        by_cases hc : ch = p / 16
        · omega
        · have hpos3 := hpos2
          rw [if_neg hc] at hpos3
          omega
      rw [subnetLoopAux_succ (p / 16) (p % 16) (i : Int) fuel result remaining ch
        ⟨hrempos, hch8⟩]
      obtain ⟨δ, hIF⟩ : ∃ d, (if ch = p / 16 then p % 16 else 0) = d := ⟨_, rfl⟩
      rw [hIF] at hpos2 hδle ⊢
      have hB1 : 1 ≤ min remaining (16 - δ) := by omega
      have hBrem : min remaining (16 - δ) ≤ remaining := by omega
      have hB16 : min remaining (16 - δ) ≤ 16 - δ := by omega
      have hBminor : min remaining (16 - δ) = remaining ∨
          min remaining (16 - δ) = 16 - δ := by omega
      obtain ⟨B, hBdef⟩ : ∃ x, min remaining (16 - δ) = x := ⟨_, rfl⟩
      rw [hBdef] at hB1 hBrem hB16 hBminor ⊢
      have hW := hagree ch (le_refl ch) hch8
      have hWmem : base.getD ch 0 ∈ base := by
        rw [List.getD_eq_getElem base 0 (by omega)]
        exact List.getElem_mem _
      have hWr := hrange _ hWmem
      have hWcast : base.getD ch 0 = (((base.getD ch 0).toNat : Nat) : Int) :=
        (Int.toNat_of_nonneg hWr.1).symm
      obtain ⟨Wn, hWndef⟩ : ∃ x, (base.getD ch 0).toNat = x := ⟨_, rfl⟩
      rw [hWndef] at hWcast
      have hWn : Wn < 65536 := by omega
      have h2B16 : (2 : Nat) ^ B ≤ 2 ^ 16 := Nat.pow_le_pow_right (by omega) (by omega)
      have h2S16 : (2 : Nat) ^ (16 - δ - B) ≤ 2 ^ 16 :=
        Nat.pow_le_pow_right (by omega) (by omega)
      have hSB16 : 16 - δ - B + B ≤ 16 := by omega
      have h2i : i < 2147483648 := by
        have hle := Nat.pow_le_pow_right (show 0 < 2 by omega) hnarrow
        have h31 : (2 : Nat) ^ 31 = 2147483648 := by norm_num
        omega
      have hprodlt : (2 : Nat) ^ B * 2 ^ (16 - δ - B) ≤ 2 ^ 16 := by
        rw [← pow_add]
        exact Nat.pow_le_pow_right (by omega) (by omega)
      have e1 : jsShl 1 B = ((2 ^ B : Nat) : Int) := by
        have h0 := jsShl_small 1 B (by omega) (by omega)
        rw [one_mul] at h0
        exact h0
      have h1B : 1 ≤ (2 : Nat) ^ B := Nat.one_le_two_pow
      have e2 : jsShl 1 B - 1 = (((2 ^ B - 1 : Nat)) : Int) := by
        rw [e1]
        omega
      have e3 : jsShl (jsShl 1 B - 1) (16 - δ - B) =
          (((2 ^ B - 1) * 2 ^ (16 - δ - B) : Nat) : Int) := by
        rw [e2]
        refine jsShl_small (2 ^ B - 1) (16 - δ - B) (by omega) ?_
        have hm : (2 ^ B - 1) * 2 ^ (16 - δ - B) < 2 ^ B * 2 ^ (16 - δ - B) :=
          Nat.mul_lt_mul_of_lt_of_le (by omega) le_rfl (by positivity)
        omega
      have e4 : jsShr (i : Int) (remaining - B) =
          ((i / 2 ^ (remaining - B) : Nat) : Int) :=
        jsShr_small i (remaining - B) h2i (by omega)
      have hdivle : i / 2 ^ (remaining - B) ≤ i := Nat.div_le_self _ _
      have e5 : jsAnd ((i / 2 ^ (remaining - B) : Nat) : Int) (jsShl 1 B - 1) =
          ((i / 2 ^ (remaining - B) % 2 ^ B : Nat) : Int) := by
        rw [e2, jsAnd_small _ _ (by omega) (by omega), Nat.and_pow_two_sub_one_eq_mod]
      have e6 : jsAnd (result.getD ch 0)
          (jsNot (((2 ^ B - 1) * 2 ^ (16 - δ - B) : Nat) : Int)) =
          ((2 ^ (16 - δ - B + B) * (Wn / 2 ^ (16 - δ - B + B)) +
            Wn % 2 ^ (16 - δ - B) : Nat) : Int) := by
        rw [hW, hWcast]
        exact jsAnd_not_mask Wn (16 - δ - B) B (by omega) hSB16
      have hplt : i / 2 ^ (remaining - B) % 2 ^ B < 2 ^ B := Nat.mod_lt _ (by positivity)
      have hpartprod : i / 2 ^ (remaining - B) % 2 ^ B * 2 ^ (16 - δ - B) <
          2 ^ B * 2 ^ (16 - δ - B) :=
        Nat.mul_lt_mul_of_lt_of_le hplt le_rfl (by positivity)
      have e7 : jsShl ((i / 2 ^ (remaining - B) % 2 ^ B : Nat) : Int) (16 - δ - B) =
          ((i / 2 ^ (remaining - B) % 2 ^ B * 2 ^ (16 - δ - B) : Nat) : Int) :=
        jsShl_small _ _ (by omega) (by omega)
      have hclr_lt : 2 ^ (16 - δ - B + B) * (Wn / 2 ^ (16 - δ - B + B)) +
          Wn % 2 ^ (16 - δ - B) < 65536 := by
        have hdm := Nat.div_add_mod Wn (2 ^ (16 - δ - B + B))
        have hsplit := mod_pow_split Wn (16 - δ - B) B
        omega
      have e8 : jsOr
          ((2 ^ (16 - δ - B + B) * (Wn / 2 ^ (16 - δ - B + B)) +
            Wn % 2 ^ (16 - δ - B) : Nat) : Int)
          ((i / 2 ^ (remaining - B) % 2 ^ B * 2 ^ (16 - δ - B) : Nat) : Int) =
          ((2 ^ (16 - δ - B + B) * (Wn / 2 ^ (16 - δ - B + B)) +
            i / 2 ^ (remaining - B) % 2 ^ B * 2 ^ (16 - δ - B) +
            Wn % 2 ^ (16 - δ - B) : Nat) : Int) := by
        rw [jsOr_small _ _ (by omega) (by omega)]
        congr 1
        exact lor_shifted_add (Wn / 2 ^ (16 - δ - B + B))
          (i / 2 ^ (remaining - B) % 2 ^ B) (Wn % 2 ^ (16 - δ - B)) (16 - δ - B) B
          hplt (Nat.mod_lt _ (by positivity))
      rw [e3, e4, e5, e6, e7, e8]
      have hNWlt : 2 ^ (16 - δ - B + B) * (Wn / 2 ^ (16 - δ - B + B)) +
          i / 2 ^ (remaining - B) % 2 ^ B * 2 ^ (16 - δ - B) +
          Wn % 2 ^ (16 - δ - B) < 65536 := by
        have hWh2 : Wn / 2 ^ (16 - δ - B + B) < 2 ^ δ := by
          rw [Nat.div_lt_iff_lt_mul (by positivity)]
          have hp16 : (2 : Nat) ^ δ * 2 ^ (16 - δ - B + B) = 2 ^ (δ + (16 - δ - B + B)) := by
            rw [← pow_add]
          have hp17 : (2 : Nat) ^ (δ + (16 - δ - B + B)) = 2 ^ 16 := by
            congr 1
            omega
          have hp18 : (2 : Nat) ^ 16 = 65536 := by norm_num
          omega
        have hmid : i / 2 ^ (remaining - B) % 2 ^ B * 2 ^ (16 - δ - B) +
            Wn % 2 ^ (16 - δ - B) < 2 ^ B * 2 ^ (16 - δ - B) := by
          have hml : Wn % 2 ^ (16 - δ - B) < 2 ^ (16 - δ - B) := Nat.mod_lt _ (by positivity)
          have hstep2 : i / 2 ^ (remaining - B) % 2 ^ B * 2 ^ (16 - δ - B) +
              2 ^ (16 - δ - B) = (i / 2 ^ (remaining - B) % 2 ^ B + 1) * 2 ^ (16 - δ - B) := by
            ring
          have hstep3 : (i / 2 ^ (remaining - B) % 2 ^ B + 1) * 2 ^ (16 - δ - B) ≤
              2 ^ B * 2 ^ (16 - δ - B) :=
            Nat.mul_le_mul_right _ (by omega)
          omega
        have hfin : 2 ^ (16 - δ - B + B) * (Wn / 2 ^ (16 - δ - B + B)) +
            2 ^ B * 2 ^ (16 - δ - B) ≤ 2 ^ 16 := by
          have hgr : 2 ^ (16 - δ - B + B) * (Wn / 2 ^ (16 - δ - B + B)) +
              2 ^ B * 2 ^ (16 - δ - B) ≤
              2 ^ (16 - δ - B + B) * (2 ^ δ - 1) + 2 ^ B * 2 ^ (16 - δ - B) := by
            have := Nat.mul_le_mul_left (2 ^ (16 - δ - B + B)) (show Wn / 2 ^ (16 - δ - B + B) ≤ 2 ^ δ - 1 by omega)
            omega
          have hpq : (2 : Nat) ^ (16 - δ - B + B) * (2 ^ δ - 1) + 2 ^ B * 2 ^ (16 - δ - B) ≤ 2 ^ 16 := by
            have hq1 : (2 : Nat) ^ (16 - δ - B + B) * 2 ^ δ = 2 ^ 16 := by
              rw [← pow_add]
              congr 1
              omega
            have hq2 : (2 : Nat) ^ B * 2 ^ (16 - δ - B) = 2 ^ (16 - δ - B + B) := by
              rw [← pow_add]
              congr 1
              omega
            have hq3 : (2 : Nat) ^ (16 - δ - B + B) * (2 ^ δ - 1) =
                2 ^ (16 - δ - B + B) * 2 ^ δ - 2 ^ (16 - δ - B + B) := by
              rw [Nat.mul_sub, Nat.mul_one]
            have hq4 : 1 ≤ (2 : Nat) ^ (16 - δ - B + B) := Nat.one_le_two_pow
            omega
          omega
        have hp18 : (2 : Nat) ^ 16 = 65536 := by norm_num
        omega
      refine ih (result.set ch _) (remaining - B) (ch + 1) (by omega) ?_ ?_ (by omega)
        (by omega) ?_ ?_ ?_
      · rw [List.length_set]
        exact hrl
      · intro x hx
        rcases List.mem_or_eq_of_mem_set hx with hx2 | rfl
        · exact hrr x hx2
        · exact ⟨Int.natCast_nonneg _, by exact_mod_cast hNWlt⟩
      · intro h0
        rw [if_neg (show ¬(ch + 1 = p / 16) from by omega)]
        rcases hBminor with hBe | hBe
        · omega
        · omega
      · intro j hj1 hj2
        rw [List.getD_eq_getElem _ 0 (by rw [List.length_set]; omega),
          List.getElem_set_ne (by omega), ← List.getD_eq_getElem _ 0 (by omega)]
        exact hagree j (by omega) hj2
      · -- the packed-value invariant after the write
        obtain ⟨part, hpart⟩ : ∃ x, i / 2 ^ (remaining - B) % 2 ^ B = x := ⟨_, rfl⟩
        obtain ⟨iq, hiq⟩ : ∃ x, i / 2 ^ remaining = x := ⟨_, rfl⟩
        obtain ⟨Wh, hWh⟩ : ∃ x, Wn / 2 ^ (16 - δ - B + B) = x := ⟨_, rfl⟩
        obtain ⟨Wlo, hWlo⟩ : ∃ x, Wn % 2 ^ (16 - δ - B) = x := ⟨_, rfl⟩
        obtain ⟨Wmid, hWmid⟩ : ∃ x, Wn / 2 ^ (16 - δ - B) % 2 ^ B = x := ⟨_, rfl⟩
        have hichunk := div_chunk i remaining B (by omega)
        rw [hpart, hiq] at hichunk
        have hgetD := wordsVal_getD base hrange ch (by omega)
        rw [hlen, hWndef] at hgetD
        have hchunk : wordsVal base / 2 ^ (128 - (t - (remaining - B))) % 2 ^ B = Wmid := by
          have hE2 : 128 - (t - (remaining - B)) = 16 * (8 - 1 - ch) + (16 - δ - B) := by
            omega
          rw [hE2, pow_add, ← Nat.div_div_eq_div_mul,
            ← div_mod_mod_pow (wordsVal base / 2 ^ (16 * (8 - 1 - ch))) (16 - δ - B) B 16 hSB16,
            hgetD, hWmid]
        have hLbsplit : wordsVal base % 2 ^ (128 - (t - remaining)) =
            Wmid * 2 ^ (128 - (t - (remaining - B))) +
            wordsVal base % 2 ^ (128 - (t - (remaining - B))) := by
          have hms := mod_pow_split (wordsVal base) (128 - (t - (remaining - B))) B
          rw [show 128 - (t - (remaining - B)) + B = 128 - (t - remaining) from by omega,
            hchunk] at hms
          exact hms
        have hWnsplit : Wn = 2 ^ (16 - δ - B + B) * Wh + Wmid * 2 ^ (16 - δ - B) + Wlo := by
          have hd1 := Nat.div_add_mod Wn (2 ^ (16 - δ - B + B))
          have hd2 := mod_pow_split Wn (16 - δ - B) B
          rw [hWh] at hd1
          rw [hWmid, hWlo] at hd2
          omega
        rw [hpart, hWh, hWlo, hichunk]
        have hP2 : (2 : Nat) ^ (128 - (t - (remaining - B))) =
            2 ^ (16 * (8 - 1 - ch)) * 2 ^ (16 - δ - B) := by
          rw [← pow_add]
          congr 1
          omega
        have hP1 : (2 : Nat) ^ (128 - (t - remaining)) =
            2 ^ (16 * (8 - 1 - ch)) * 2 ^ (16 - δ - B) * 2 ^ B := by
          rw [← pow_add, ← pow_add]
          congr 1
          omega
        have hP3 : (2 : Nat) ^ (16 - δ - B + B) = 2 ^ (16 - δ - B) * 2 ^ B :=
          pow_add 2 _ _
        rw [hP2, hP3]
        have hset := wordsVal_set result ch
          (((2 ^ (16 - δ - B) * 2 ^ B * (Wh) +
            part * 2 ^ (16 - δ - B) + Wlo : Nat) : Int)) (by omega)
        rw [hrl, hW, hWndef, Int.toNat_ofNat, hval, hiq, hLbsplit, hP1, hP2, hWnsplit,
          hP3] at hset
        exact Nat.add_right_cancel (hset.trans (by ring))
    · have hstep : IPv6Subnetting.subnetLoopAux (p / 16) (p % 16) (i : Int) (fuel + 1)
          result remaining ch = result := by
        conv_lhs => rw [IPv6Subnetting.subnetLoopAux]
        rw [if_neg hguard]
      rw [hstep]
      have hrem0 : remaining = 0 := by
        rcases Nat.eq_zero_or_pos remaining with h0 | h0
        · exact h0
        · exfalso
          have hp2 := hpos h0
          have hd : (if ch = p / 16 then p % 16 else 0) ≤ 15 := by split <;> omega
          omega
      subst hrem0
      refine ⟨hrl, hrr, ?_⟩
      rw [hval]
      norm_num


/-- C9 (corrected): for narrow subnet ranges, `t - p ≤ 31`, the i-th subnet
address equals the base with the binary value of `i` written into the
address bit range `[p, t)` and all other bits unchanged — stated on the
packed 128-bit value, with words staying 16-bit.  (For wider ranges the
JavaScript `>>` masks its shift count modulo 32 and the written words are
wrong, as the counterexample shows.)  The spec's `/34` scenario holds, with
the four subnets rendered in full expanded form in increasing order. -/
theorem c9_subnet_bit_write (base : List Int) (p t i : Nat)
    (hlen : base.length = 8) (hrange : ∀ x ∈ base, 0 ≤ x ∧ x < 65536)
    (hpt : p < t) (ht : t ≤ 128) (hnarrow : t - p ≤ 31) (hi : i < 2 ^ (t - p)) :
    ((IPv6Subnetting.calculateSubnetAddress base p t i).length = 8 ∧
     (∀ x ∈ IPv6Subnetting.calculateSubnetAddress base p t i, 0 ≤ x ∧ x < 65536) ∧
     wordsVal (IPv6Subnetting.calculateSubnetAddress base p t i) =
       wordsVal base / 2 ^ (128 - p) * 2 ^ (128 - p) + i * 2 ^ (128 - t) +
         wordsVal base % 2 ^ (128 - t)) ∧
    (IPv6Subnetting.calculateSubnets "2001:db8::/32".toList 34 none).map
        (fun pl => pl.subnets.map (fun sn => sn.network)) =
      Except.ok ["2001:0db8:0000:0000:0000:0000:0000:0000/34".toList,
        "2001:0db8:4000:0000:0000:0000:0000:0000/34".toList,
        "2001:0db8:8000:0000:0000:0000:0000:0000/34".toList,
        "2001:0db8:c000:0000:0000:0000:0000:0000/34".toList] := by
  constructor
  · unfold IPv6Subnetting.calculateSubnetAddress IPv6Subnetting.subnetLoop
    dsimp only
    refine subnetLoopAux_spec base p t i hlen hrange hpt ht hnarrow hi (8 - p / 16) base
      (t - p) (p / 16) (by omega) hlen hrange le_rfl (by omega) ?_
      (fun j hj1 hj2 => rfl) ?_
    · intro h0
      rw [if_pos rfl]
      omega
    · rw [Nat.div_eq_of_lt hi,
        show 128 - (t - (t - p)) = 128 - p from by omega]
      have hdm2 : wordsVal base / 2 ^ (128 - p) * 2 ^ (128 - p) +
          wordsVal base % 2 ^ (128 - p) = wordsVal base := Nat.div_add_mod' _ _
      simp only [Nat.zero_mul]
      omega
  · rfl

/-- Concrete instance of the amended C9 at `2001:db8::/32 → /34`, index 3. -/
theorem c9_subnet_bit_write_witness :
    (IPv6Subnetting.calculateSubnetAddress [8193, 3512, 0, 0, 0, 0, 0, 0] 32 34 3).length = 8 ∧
    (∀ x ∈ IPv6Subnetting.calculateSubnetAddress [8193, 3512, 0, 0, 0, 0, 0, 0] 32 34 3,
      0 ≤ x ∧ x < 65536) ∧
    wordsVal (IPv6Subnetting.calculateSubnetAddress [8193, 3512, 0, 0, 0, 0, 0, 0] 32 34 3) =
      wordsVal [8193, 3512, 0, 0, 0, 0, 0, 0] / 2 ^ (128 - 32) * 2 ^ (128 - 32) +
        3 * 2 ^ (128 - 34) + wordsVal [8193, 3512, 0, 0, 0, 0, 0, 0] % 2 ^ (128 - 34) :=
  (c9_subnet_bit_write [8193, 3512, 0, 0, 0, 0, 0, 0] 32 34 3 (by decide)
    (by decide) (by omega) (by omega) (by omega) (by norm_num)).1

end IPv6
